import Mathlib

/-!
Shallow embedding of the graph-search engine: recursive and iterative DFS,
BFS, Dijkstra's algorithm with a lazy-deletion priority queue, the
predecessor-map path reconstruction, and the travel-time weight assigner.

Modelling conventions:
* Node identifiers (strings ordered lexicographically in the source) are
  embedded as naturals with their order; only equality and the total order
  are ever used.
* Numeric edge weights (floats in the source) are embedded as rationals;
  `float('infinity')` becomes `⊤ : WithTop ℚ`.
* The binary heap of `heapq` is observably a multiset whose pop returns the
  lexicographically least `(distance, node)` tuple; it is embedded as a list
  together with a pop-minimum operation.
* Loops and recursions are fuel-indexed; an outer `none` means the fuel ran
  out.  For every entry point the chosen fuel is proved sufficient, so the
  wrappers coincide with the source's unbounded loops.
* Python's salted string hash is embedded as an arbitrary function
  parameter `hashf : Node → ℤ`.
-/

abbrev Node := ℕ

/-- An undirected edge with its category label and optional weight,
mirroring a networkx edge with `line` and `weight` attributes. -/
structure GEdge where
  ep1 : Node
  ep2 : Node
  line : String := ""
  weight : Option ℚ := none
deriving DecidableEq, Repr

/-- An undirected graph given by its edge list (the order mirrors the
insertion order of `add_edge` calls). -/
structure Graph where
  edges : List GEdge
deriving DecidableEq, Repr

namespace Graph

/-- The node set in first-appearance order, as networkx `graph.nodes()`
enumerates the nodes inserted by `add_edge`. -/
def nodeList (g : Graph) : List Node :=
  (g.edges.flatMap (fun e => [e.ep1, e.ep2])).dedup

/-- Adjacency of `x`: the opposite endpoints of the edges touching `x`,
mirroring `graph.neighbors(x)`. -/
def adj (g : Graph) (x : Node) : List Node :=
  g.edges.filterMap (fun e =>
    if e.ep1 = x then some e.ep2 else if e.ep2 = x then some e.ep1 else none)

/-- `sorted(graph.neighbors(x))`: adjacency in ascending order. -/
def neighborsSorted (g : Graph) (x : Node) : List Node :=
  List.insertionSort (· ≤ ·) (g.adj x)

/-- `b` is adjacent to `a`. -/
def isEdge (g : Graph) (a b : Node) : Prop := b ∈ g.adj a

instance (g : Graph) (a b : Node) : Decidable (g.isEdge a b) :=
  inferInstanceAs (Decidable (b ∈ g.adj a))

/-- `graph[a][b].get('weight', 1)`: the weight attribute of the edge between
`a` and `b`, defaulting to `1` when the attribute is absent. -/
def edgeWeight (g : Graph) (a b : Node) : ℚ :=
  match g.edges.find? (fun e =>
      (e.ep1 == a && e.ep2 == b) || (e.ep1 == b && e.ep2 == a)) with
  | some e => e.weight.getD 1
  | none => 1

end Graph

/-- A walk in `g` from `s` to `t`: a nonempty node sequence starting at `s`,
ending at `t`, each consecutive pair joined by an edge. -/
def IsWalkFrom (g : Graph) (s t : Node) (p : List Node) : Prop :=
  p.head? = some s ∧ p.getLast? = some t ∧ List.Chain' (fun a b => g.isEdge a b) p

/-- A valid simple path of the data model: a walk without repeated nodes all
of whose nodes belong to the graph. -/
def IsSimplePath (g : Graph) (s t : Node) (p : List Node) : Prop :=
  IsWalkFrom g s t p ∧ p.Nodup ∧ ∀ x ∈ p, x ∈ g.nodeList

/-- Cumulative weight of a node sequence: the sum of the weights of its
consecutive edges. -/
def walkWeight (g : Graph) : List Node → ℚ
  | [] => 0
  | [_] => 0
  | a :: b :: rest => g.edgeWeight a b + walkWeight g (b :: rest)

/-- The `for neighbor in neighbors` loop of `dfs_path`: skip neighbors on
the current path, call the next recursion level (`next`) on the rest, and
return the first truthy result.  An outer `none` (fuel exhaustion below)
propagates. -/
def dfsTry (next : Node → List Node → Option (Option (List Node))) :
    List Node → List Node → Option (Option (List Node))
  | [], _ => some none
  | n :: ns, path =>
    if n ∈ path then dfsTry next ns path
    else
      match next n path with
      | none => none
      | some (some r) => some (some r)
      | some none => dfsTry next ns path

/-- `dfs_path(graph, start, goal, path)`, fuel-indexed.  The body mirrors the
source line by line: extend the accumulated path with `start`, succeed when
`start == goal`, fail when `start` is absent from the graph, otherwise try
the ascending-sorted neighbors not already on the path, returning the first
success. -/
def dfsAux (g : Graph) (goal : Node) : ℕ → Node → List Node → Option (Option (List Node))
  | 0, _, _ => none
  | fuel+1, start, path =>
    let path2 := path ++ [start]
    if start = goal then some (some path2)
    else if start ∈ g.nodeList then
      dfsTry (dfsAux g goal fuel) (g.neighborsSorted start) path2
    else some none

/-- Sufficient recursion fuel for `dfs_path`: the recursion depth is bounded
by the number of distinct nodes plus one. -/
def dfsFuel (g : Graph) : ℕ := g.nodeList.length + 2

/-- `dfs_path(graph, start, goal)` with the default `path=None`. -/
def dfs_path (g : Graph) (start goal : Node) : Option (List Node) :=
  (dfsAux g goal (dfsFuel g) start []).join

/-- The `while stack` loop of `dfs_path_iterative`: pop `(current, path)`,
succeed on the goal, skip expanded nodes, otherwise mark `current` visited
and push its not-yet-visited neighbors in descending order so that the
smallest ends on top. -/
def dfsIterAux (g : Graph) : ℕ → List (Node × List Node) → Node → List Node →
    Option (Option (List Node))
  | 0, _, _, _ => none
  | _+1, [], _, _ => some none
  | fuel+1, (current, path) :: stack, goal, visited =>
    if current = goal then some (some path)
    else if current ∈ visited then dfsIterAux g fuel stack goal visited
    else
      let visited2 := current :: visited
      let stack2 := ((g.neighborsSorted current).reverse).foldl
        (fun st n => if n ∈ visited2 then st else (n, path ++ [n]) :: st) stack
      dfsIterAux g fuel stack2 goal visited2

/-- Sufficient fuel for the iterative DFS loop: one pop per initial stack
entry plus at most one push per adjacency entry of each expandable node. -/
def dfsIterFuel (g : Graph) : ℕ :=
  2 + (g.nodeList.map (fun u => (g.adj u).length)).sum

/-- `dfs_path_iterative(graph, start, goal)`. -/
def dfs_path_iterative (g : Graph) (start goal : Node) : Option (List Node) :=
  if start ∈ g.nodeList ∧ goal ∈ g.nodeList then
    (dfsIterAux g (dfsIterFuel g) [(start, [start])] goal []).join
  else none

/-- The `for neighbor in neighbors` body of `bfs_path`: skip visited
neighbors, return `path + [neighbor]` as soon as the goal appears, otherwise
mark the neighbor visited and enqueue it at the back. -/
def bfsScan (goal : Node) (path : List Node) :
    List Node → List (Node × List Node) → List Node →
    (List Node) ⊕ (List (Node × List Node) × List Node)
  | [], queue, visited => Sum.inr (queue, visited)
  | n :: ns, queue, visited =>
    if n ∈ visited then bfsScan goal path ns queue visited
    else if n = goal then Sum.inl (path ++ [n])
    else bfsScan goal path ns (queue ++ [(n, path ++ [n])]) (n :: visited)

/-- The `while queue` loop of `bfs_path`: pop `(current, path)` from the
front and scan the ascending-sorted neighbors. -/
def bfsAux (g : Graph) : ℕ → List (Node × List Node) → Node → List Node →
    Option (Option (List Node))
  | 0, _, _, _ => none
  | _+1, [], _, _ => some none
  | fuel+1, (current, path) :: queue, goal, visited =>
    match bfsScan goal path (g.neighborsSorted current) queue visited with
    | Sum.inl found => some (some found)
    | Sum.inr (queue2, visited2) => bfsAux g fuel queue2 goal visited2

/-- Sufficient fuel for the BFS loop: each node is enqueued at most once. -/
def bfsFuel (g : Graph) : ℕ := g.nodeList.length + 2

/-- `bfs_path(graph, start, goal)`. -/
def bfs_path (g : Graph) (start goal : Node) : Option (List Node) :=
  if start ∈ g.nodeList ∧ goal ∈ g.nodeList then
    if start = goal then some [start]
    else (bfsAux g (bfsFuel g) [(start, [start])] goal [start]).join
  else none

/-- Mutable state of `dijkstra`: the distance dict (with `⊤` for
`float('infinity')`), the predecessor dict, the heap contents, and the
finalized set (kept as an insertion-ordered list, newest first). -/
structure DState where
  dist : Node → WithTop ℚ
  prev : Node → Option Node
  pq : List (ℚ × Node)
  visited : List Node

/-- The smaller of two heap entries under the tuple comparison that `heapq`
uses: distance first, then node. -/
def lexMin (a b : ℚ × Node) : ℚ × Node :=
  if a.1 < b.1 then a else if b.1 < a.1 then b else if a.2 ≤ b.2 then a else b

/-- `heapq.heappop`: remove and return the least `(distance, node)` entry. -/
def popMin : List (ℚ × Node) → Option ((ℚ × Node) × List (ℚ × Node))
  | [] => none
  | x :: xs =>
    let m := xs.foldl lexMin x
    some (m, (x :: xs).erase m)

/-- The body of `for neighbor in graph.neighbors(current_node)` in
`dijkstra`: skip visited neighbors, compute the candidate distance through
`current`, and on strict improvement update the distance and predecessor
dicts and push the new entry. -/
def relax (g : Graph) (current : Node) (d : ℚ) (st : DState) (n : Node) : DState :=
  if n ∈ st.visited then st
  else
    let nd := d + g.edgeWeight current n
    if (nd : WithTop ℚ) < st.dist n then
      { st with
        dist := Function.update st.dist n (nd : WithTop ℚ),
        prev := Function.update st.prev n (some current),
        pq := (nd, n) :: st.pq }
    else st

/-- The `while priority_queue` loop of `dijkstra`: pop the least entry, skip
already-finalized nodes, finalize the node, skip stale entries, otherwise
relax every neighbor. -/
def dijkstraLoop (g : Graph) : ℕ → DState → DState
  | 0, st => st
  | fuel+1, st =>
    match popMin st.pq with
    | none => st
    | some ((d, current), rest) =>
      if current ∈ st.visited then
        dijkstraLoop g fuel { st with pq := rest }
      else
        let st1 : DState := { st with pq := rest, visited := current :: st.visited }
        if (d : WithTop ℚ) > st1.dist current then
          dijkstraLoop g fuel st1
        else
          dijkstraLoop g fuel ((g.adj current).foldl (relax g current d) st1)

/-- The initial state of `dijkstra`: distance `0` at the start and infinity
elsewhere, no predecessors, the heap seeded with `(0, start)`. -/
def dijkstraInit (start : Node) : DState :=
  { dist := Function.update (fun _ => (⊤ : WithTop ℚ)) start 0,
    prev := fun _ => none,
    pq := [(0, start)],
    visited := [] }

/-- Sufficient fuel for the Dijkstra loop: one initial pop plus at most one
push per adjacency entry of each finalizable node. -/
def dijkstraFuel (g : Graph) : ℕ :=
  2 + (g.nodeList.map (fun u => (g.adj u).length)).sum

/-- `dijkstra(graph, start)`: returns the distance and predecessor maps. -/
def dijkstra (g : Graph) (start : Node) : (Node → WithTop ℚ) × (Node → Option Node) :=
  let st := dijkstraLoop g (dijkstraFuel g) (dijkstraInit start)
  (st.dist, st.prev)

/-- The `while current is not None` walk of `reconstruct_path`, fuel-indexed:
append the current node and follow its predecessor link. -/
def walkBack (prev : Node → Option Node) : ℕ → Option Node → List Node → Option (List Node)
  | 0, _, _ => none
  | _+1, none, acc => some acc
  | fuel+1, some c, acc => walkBack prev fuel (prev c) (acc ++ [c])

/-- `reconstruct_path(previous, start, end)`: walk backward from the target,
reverse, and return the result only when it begins at `start`, else the
empty path. -/
def reconstruct_path (prev : Node → Option Node) (start target : Node) (fuel : ℕ) :
    Option (List Node) :=
  match walkBack prev fuel (some target) [] with
  | none => none
  | some l =>
    let p := l.reverse
    some (if p.head? = some start then p else [])

/-- Python's `round(x, 1)`: round to one decimal place (the source only ever
rounds exact multiples of one tenth, where every tie rule agrees). -/
def pyRound1 (q : ℚ) : ℚ := (round (q * 10) : ℤ) / 10

/-- `add_travel_times(G)`: weight `5` for `"transfer"` edges, otherwise the
base `2.5` plus a hash-derived variation `((hash(u)+hash(v)) % 10) / 10`,
rounded to one decimal.  The interpreter's salted string hash is the
parameter `hashf`. -/
def add_travel_times (hashf : Node → ℤ) (g : Graph) : Graph :=
  ⟨g.edges.map (fun e =>
    if e.line = "transfer" then { e with weight := some 5 }
    else
      let variation : ℚ := (((hashf e.ep1 + hashf e.ep2) % 10 : ℤ) : ℚ) / 10
      { e with weight := some (pyRound1 ((2.5 : ℚ) + variation)) })⟩

/-- The graph whose edge weights are those of `g` multiplied by `k` (the
transformed input of the weight-scaling property). -/
def scaleGraph (k : ℚ) (g : Graph) : Graph :=
  ⟨g.edges.map (fun e => { e with weight := e.weight.map (fun w => k * w) })⟩

/-- Every edge carries a resolved weight: the WeightedGraph shape. -/
def AllWeighted (g : Graph) : Prop := ∀ e ∈ g.edges, e.weight.isSome

/-- Every resolved edge weight (the default `1` included) is nonnegative:
the WeightedGraph invariant. -/
def NonnegWeights (g : Graph) : Prop := ∀ e ∈ g.edges, 0 ≤ e.weight.getD 1

/-- No edge carries a weight attribute. -/
def NoWeights (g : Graph) : Prop := ∀ e ∈ g.edges, e.weight = none

/-- A fixed stand-in for the interpreter's string hash, used to instantiate
witnesses. -/
def demoHash : Node → ℤ := fun n => (n : ℤ)

/-- A two-edge demonstration graph with one `transfer` and one ordinary
edge. -/
def demoLineGraph : Graph := ⟨[⟨0, 3, "red", some 1⟩, ⟨1, 2, "transfer", some 1⟩]⟩

/-- An unweighted chain `0 – 1 – 2`, used to instantiate witnesses. -/
def demoChain : Graph := ⟨[⟨0, 1, "", none⟩, ⟨1, 2, "", none⟩]⟩

/-- A weighted triangle used to instantiate witnesses: the two-hop route
`0 – 1 – 2` (weight 2) is cheaper than the direct edge `0 – 2` (weight 5). -/
def demoWeighted : Graph :=
  ⟨[⟨0, 1, "", some 1⟩, ⟨1, 2, "", some 1⟩, ⟨0, 2, "", some 5⟩]⟩

/-- Scaling of a heap entry by `k`. -/
def scaleEntry (k : ℚ) (pr : ℚ × Node) : ℚ × Node := (k * pr.1, pr.2)

/-- Scaling of a Dijkstra state by `k`: distances and queue keys are
multiplied by `k`; predecessors and the visited set are untouched. -/
def scaleState (k : ℚ) (st : DState) : DState :=
  { dist := fun n => (st.dist n).map (fun w => k * w),
    prev := st.prev,
    pq := st.pq.map (scaleEntry k),
    visited := st.visited }

/-- A disconnected demonstration graph: two components `0 – 1` and `2 – 3`. -/
def demoDisc : Graph := ⟨[⟨0, 1, "", some 1⟩, ⟨2, 3, "", some 1⟩]⟩

/-- `u` was finalized strictly earlier than `v` in the newest-first visited
list `l`. -/
def Older (l : List Node) (u v : Node) : Prop :=
  ∃ l₁ l₂, l = l₁ ++ v :: l₂ ∧ u ∈ l₂

/-- The weight-independent invariant of the Dijkstra loop state: the visited
list is duplicate-free, visited nodes and queued nodes are the start or
graph nodes, and every predecessor link points from a node to a strictly
earlier finalized node. -/
def DInvBase (g : Graph) (s : Node) (st : DState) : Prop :=
  st.visited.Nodup ∧
  (∀ v ∈ st.visited, v = s ∨ v ∈ g.nodeList) ∧
  (∀ pr ∈ st.pq, pr.2 = s ∨ pr.2 ∈ g.nodeList) ∧
  (∀ v u, st.prev v = some u →
    u ∈ st.visited ∧ (v ∈ st.visited → Older st.visited u v))

/-- A walk from `s` ending at the indexed node with the indexed cumulative
weight, built edge by edge.  Equivalent to `IsWalkFrom` plus `walkWeight`
(proved below); used for inductive arguments. -/
inductive WalkW (g : Graph) (s : Node) : Node → ℚ → Prop
  | nil : WalkW g s s 0
  | cons {u v : Node} {c : ℚ} :
      WalkW g s u c → g.isEdge u v → WalkW g s v (c + g.edgeWeight u v)

/-- The same graph with every edge's weight attribute set to `1`: the value
`graph[u][v].get('weight', 1)` resolves to on a weightless graph. -/
def withUnitWeights (g : Graph) : Graph :=
  ⟨g.edges.map (fun e => { e with weight := some 1 })⟩

/-- Termination potential of the Dijkstra loop: the queue length plus the
total adjacency size of the not-yet-finalized nodes. -/
def dPotential (g : Graph) (st : DState) : ℕ :=
  st.pq.length +
    ((g.nodeList.filter (fun u => u ∉ st.visited)).map
      (fun u => (g.adj u).length)).sum

/-- The core distance invariant of the Dijkstra loop (everything except the
frontier bound): finalized distances are optimal and achieved; queue entries
are walk weights bounding the tentative distances; every finite tentative
distance of an unfinalized node is present in the queue; the start keeps
distance zero and no predecessor; predecessor links record an edge and the
defining distance equation; queued non-start nodes and finalized non-start
nodes have predecessors. -/
def DInvCore (g : Graph) (s : Node) (st : DState) : Prop :=
  (∀ u ∈ st.visited, ∃ c : ℚ, st.dist u = some c ∧ WalkW g s u c ∧
      ∀ c', WalkW g s u c' → c ≤ c') ∧
  (∀ pr ∈ st.pq, WalkW g s pr.2 pr.1) ∧
  (∀ pr ∈ st.pq, st.dist pr.2 ≤ some pr.1) ∧
  (∀ v, v ∉ st.visited → st.dist v ≠ ⊤ →
      ∃ d : ℚ, st.dist v = some d ∧ (d, v) ∈ st.pq) ∧
  st.dist s = some 0 ∧
  (s ∈ st.visited ∨ (0, s) ∈ st.pq) ∧
  (∀ v u, st.prev v = some u → g.isEdge u v ∧
      st.dist v = st.dist u + (g.edgeWeight u v : WithTop ℚ)) ∧
  (∀ pr ∈ st.pq, pr.2 = s ∨ st.prev pr.2 ≠ none) ∧
  (∀ v ∈ st.visited, v ≠ s → st.prev v ≠ none) ∧
  st.prev s = none

/-- The frontier bound of the Dijkstra loop: the tentative distance of an
unfinalized node is at most the distance of any finalized neighbor plus the
joining edge's weight. -/
def DInvFrontier (g : Graph) (st : DState) : Prop :=
  ∀ u ∈ st.visited, ∀ v, g.isEdge u v → v ∉ st.visited →
    st.dist v ≤ st.dist u + (g.edgeWeight u v : WithTop ℚ)

/-- A walk from `s` ending at the indexed node with the indexed edge count,
built edge by edge; the hop-counting analogue of `WalkW`. -/
inductive WalkN (g : Graph) (s : Node) : Node → ℕ → Prop
  | nil : WalkN g s s 0
  | cons {u v : Node} {k : ℕ} :
      WalkN g s u k → g.isEdge u v → WalkN g s v (k + 1)

/-- The invariant of the BFS loop state `(Q, V)` searching for `t` from `s`:
the start is visited, the goal is not, the visited list is duplicate-free
and inside the graph, every queue entry carries a duplicate-free walk from
the start through visited nodes to its visited endpoint, queue path lengths
are nondecreasing and spread over at most two values, every queue path is a
shortest walk to its endpoint, and every visited node either still waits in
the queue or has all its neighbors visited. -/
def BInv (g : Graph) (s t : Node) (Q : List (Node × List Node))
    (V : List Node) : Prop :=
  s ∈ V ∧ t ∉ V ∧ V.Nodup ∧ (∀ v ∈ V, v ∈ g.nodeList) ∧
  (∀ e ∈ Q, e.1 ∈ V ∧ IsWalkFrom g s e.1 e.2 ∧ e.2.Nodup ∧
    ∀ x ∈ e.2, x ∈ V) ∧
  List.Pairwise (fun a b : Node × List Node => a.2.length ≤ b.2.length) Q ∧
  (∀ a ∈ Q, ∀ b ∈ Q, a.2.length ≤ b.2.length + 1) ∧
  (∀ e ∈ Q, ∀ k, WalkN g s e.1 k → e.2.length ≤ k + 1) ∧
  (∀ u ∈ V, (∃ p, (u, p) ∈ Q) ∨ (∀ w, g.isEdge u w → w ∈ V))

/-! ### Theorems -/

/-- Rounding an exact multiple of one tenth to one decimal place returns it
unchanged. -/
theorem pyRound1_tenth (m : ℤ) : pyRound1 ((m : ℚ) / 10) = (m : ℚ) / 10 := by
  unfold pyRound1
  rw [div_mul_cancel₀ _ (by norm_num : (10 : ℚ) ≠ 0), round_intCast]

/-- C8: `add_travel_times` keeps the edge list shape and, per edge, assigns
weight `5` to `"transfer"` edges and `2.5` plus the hash-derived variation
`((hash u + hash v) % 10) / 10 ∈ [0, 0.9]` (a fixed point of the one-decimal
rounding) to all others; hence every weight is nonnegative, and every
transfer edge is strictly heavier than every non-transfer edge. -/
theorem add_travel_times_spec (hashf : Node → ℤ) (g : Graph) :
    (add_travel_times hashf g).edges.length = g.edges.length ∧
    (∀ e ∈ (add_travel_times hashf g).edges,
      (e.line = "transfer" → e.weight = some 5) ∧
      (e.line ≠ "transfer" →
        e.weight = some ((2.5 : ℚ) + (((hashf e.ep1 + hashf e.ep2) % 10 : ℤ) : ℚ) / 10) ∧
        0 ≤ (((hashf e.ep1 + hashf e.ep2) % 10 : ℤ) : ℚ) / 10 ∧
        (((hashf e.ep1 + hashf e.ep2) % 10 : ℤ) : ℚ) / 10 ≤ (0.9 : ℚ) ∧
        ∃ w : ℚ, e.weight = some w ∧ (2.5 : ℚ) ≤ w ∧ w ≤ (3.4 : ℚ)) ∧
      ∃ w : ℚ, e.weight = some w ∧ 0 ≤ w) ∧
    (∀ e₁ ∈ (add_travel_times hashf g).edges, ∀ e₂ ∈ (add_travel_times hashf g).edges,
      e₁.line = "transfer" → e₂.line ≠ "transfer" →
        e₂.weight.getD 1 < e₁.weight.getD 1) := by
  have key : ∀ e ∈ (add_travel_times hashf g).edges,
      (e.line = "transfer" → e.weight = some 5) ∧
      (e.line ≠ "transfer" →
        e.weight = some ((2.5 : ℚ) + (((hashf e.ep1 + hashf e.ep2) % 10 : ℤ) : ℚ) / 10) ∧
        0 ≤ (((hashf e.ep1 + hashf e.ep2) % 10 : ℤ) : ℚ) / 10 ∧
        (((hashf e.ep1 + hashf e.ep2) % 10 : ℤ) : ℚ) / 10 ≤ (0.9 : ℚ) ∧
        ∃ w : ℚ, e.weight = some w ∧ (2.5 : ℚ) ≤ w ∧ w ≤ (3.4 : ℚ)) ∧
      ∃ w : ℚ, e.weight = some w ∧ 0 ≤ w := by
    intro e he
    rw [add_travel_times, List.mem_map] at he
    obtain ⟨a, -, rfl⟩ := he
    by_cases hline : a.line = "transfer"
    · simp only [hline, if_pos rfl]
      refine ⟨fun _ => rfl, fun h => absurd rfl h, 5, rfl, by norm_num⟩
    · have hmod0 : (0 : ℤ) ≤ (hashf a.ep1 + hashf a.ep2) % 10 :=
        Int.emod_nonneg _ (by norm_num)
    
      have hmod9 : (hashf a.ep1 + hashf a.ep2) % 10 ≤ 9 := by
        have := Int.emod_lt_of_pos (hashf a.ep1 + hashf a.ep2) (by norm_num : (0:ℤ) < 10)
        omega
      have hc0 : (0 : ℚ) ≤ (((hashf a.ep1 + hashf a.ep2) % 10 : ℤ) : ℚ) / 10 := by
        positivity
      have hc9 : (((hashf a.ep1 + hashf a.ep2) % 10 : ℤ) : ℚ) / 10 ≤ (0.9 : ℚ) := by
        rw [div_le_iff₀ (by norm_num : (0:ℚ) < 10)]
        calc (((hashf a.ep1 + hashf a.ep2) % 10 : ℤ) : ℚ) ≤ (9 : ℚ) := by
              exact_mod_cast hmod9
          _ = (0.9 : ℚ) * 10 := by norm_num
      have hval : pyRound1 ((2.5 : ℚ) + (((hashf a.ep1 + hashf a.ep2) % 10 : ℤ) : ℚ) / 10)
          = (2.5 : ℚ) + (((hashf a.ep1 + hashf a.ep2) % 10 : ℤ) : ℚ) / 10 := by
        have : (2.5 : ℚ) + (((hashf a.ep1 + hashf a.ep2) % 10 : ℤ) : ℚ) / 10
            = (((25 + (hashf a.ep1 + hashf a.ep2) % 10 : ℤ) : ℚ)) / 10 := by
          push_cast; ring
        rw [this, pyRound1_tenth]
      simp only [if_neg hline]
      refine ⟨fun h => absurd h hline, fun _ => ?_, ?_⟩
      · refine ⟨by simpa using hval, hc0, hc9,
          (2.5 : ℚ) + (((hashf a.ep1 + hashf a.ep2) % 10 : ℤ) : ℚ) / 10,
          by simpa using hval, by linarith, by linarith⟩
      · exact ⟨(2.5 : ℚ) + (((hashf a.ep1 + hashf a.ep2) % 10 : ℤ) : ℚ) / 10,
          by simpa using hval, by linarith⟩
  refine ⟨by simp [add_travel_times], key, ?_⟩
  intro e₁ h₁ e₂ h₂ ht hn
  obtain ⟨w₂, hw₂, h25, h34⟩ := ((key e₂ h₂).2.1 hn).2.2.2
  have h5 : e₁.weight = some 5 := (key e₁ h₁).1 ht
  rw [h5, hw₂]
  simp only [Option.getD_some]
  linarith

/-- Witness for C8 at a concrete graph and hash function: the weight
assigned to the transfer edge `1–2` is resolved and nonnegative. -/
theorem add_travel_times_spec_witness :
    ∃ w : ℚ, (GEdge.mk 1 2 "transfer" (some 5)).weight = some w ∧ 0 ≤ w :=
  ((add_travel_times_spec demoHash demoLineGraph).2.1
    ⟨1, 2, "transfer", some 5⟩
    (by exact List.mem_cons_of_mem _ (List.mem_cons_self _ _))).2.2

/-- A duplicate-free list contained in another list is no longer than it. -/
theorem nodup_subset_length_le {l l' : List Node} (h : l.Nodup) (hs : l ⊆ l') :
    l.length ≤ l'.length := by
  calc l.length = l.toFinset.card := (List.toFinset_card_of_nodup h).symm
    _ ≤ l'.toFinset.card := Finset.card_le_card (fun x hx => by
        simp only [List.mem_toFinset] at hx ⊢; exact hs hx)
    _ ≤ l'.length := l'.toFinset_card_le

/-- Neighbors of any node are nodes of the graph. -/
theorem Graph.adj_subset_nodeList (g : Graph) (u : Node) : g.adj u ⊆ g.nodeList := by
  intro x hx
  rw [Graph.nodeList, List.mem_dedup, List.mem_flatMap]
  rw [Graph.adj, List.mem_filterMap] at hx
  obtain ⟨e, he, hx⟩ := hx
  refine ⟨e, he, ?_⟩
  split at hx
  · cases hx; simp
  · split at hx
    · cases hx; simp
    · cases hx

/-- Sorting does not change membership in the neighbor list. -/
theorem Graph.mem_neighborsSorted {g : Graph} {u x : Node} :
    x ∈ g.neighborsSorted u ↔ x ∈ g.adj u := List.mem_insertionSort _

/-- Sorted neighbors of any node are nodes of the graph. -/
theorem Graph.neighborsSorted_subset_nodeList (g : Graph) (u : Node) :
    g.neighborsSorted u ⊆ g.nodeList := fun _ hx =>
  g.adj_subset_nodeList u (Graph.mem_neighborsSorted.1 hx)

/-- If every result of `next` ends at the goal, so does every successful
result of the neighbor loop. -/
theorem dfsTry_last {next : Node → List Node → Option (Option (List Node))} {goal : Node}
    (hnext : ∀ n path r, next n path = some (some r) → r.getLast? = some goal) :
    ∀ ns path r, dfsTry next ns path = some (some r) → r.getLast? = some goal := by
  intro ns
  induction ns with
  | nil => intro path r h; simp [dfsTry] at h
  | cons n ns ih =>
    intro path r h
    rw [dfsTry] at h
    split at h
    · exact ih _ _ h
    · rcases hn : next n path with _ | r'
      · rw [hn] at h; simp at h
      · rw [hn] at h
        rcases r' with _ | r''
        · exact ih _ _ h
        · simp only [Option.some.injEq] at h
          exact h ▸ hnext _ _ _ hn

/-- Any successful result of the recursive DFS ends at the goal node. -/
theorem dfsAux_last (g : Graph) (goal : Node) :
    ∀ fuel s path r, dfsAux g goal fuel s path = some (some r) →
      r.getLast? = some goal := by
  intro fuel
  induction fuel with
  | zero => intro s path r h; simp [dfsAux] at h
  | succ fuel ih =>
    intro s path r h
    rw [dfsAux] at h
    split at h
    · rename_i hgoal
      simp only [Option.some.injEq] at h
      rw [← h, ← hgoal]
      exact List.getLast?_concat _
    · split at h
      · exact dfsTry_last ih _ _ _ h
      · simp at h

/-- Nodes of a successful neighbor-loop result lie on the accumulated path,
in the neighbor list, or wherever `next`'s own results lie. -/
theorem dfsTry_mem {next : Node → List Node → Option (Option (List Node))}
    {P : Node → Prop}
    (hnext : ∀ n path r, next n path = some (some r) →
      ∀ x ∈ r, x ∈ path ∨ x = n ∨ P x) :
    ∀ ns path r, dfsTry next ns path = some (some r) →
      ∀ x ∈ r, x ∈ path ∨ x ∈ ns ∨ P x := by
  intro ns
  induction ns with
  | nil => intro path r h; simp [dfsTry] at h
  | cons n ns ih =>
    intro path r h x hx
    rw [dfsTry] at h
    split at h
    · rcases ih _ _ h x hx with h' | h' | h'
      · exact Or.inl h'
      · exact Or.inr (Or.inl (List.mem_cons_of_mem _ h'))
      · exact Or.inr (Or.inr h')
    · rcases hn : next n path with _ | r'
      · rw [hn] at h; simp at h
      · rw [hn] at h
        rcases r' with _ | r''
        · rcases ih _ _ h x hx with h' | h' | h'
          · exact Or.inl h'
          · exact Or.inr (Or.inl (List.mem_cons_of_mem _ h'))
          · exact Or.inr (Or.inr h')
        · simp only [Option.some.injEq] at h
          subst h
          rcases hnext _ _ _ hn x hx with h' | h' | h'
          · exact Or.inl h'
          · exact Or.inr (Or.inl (h' ▸ List.mem_cons_self _ _))
          · exact Or.inr (Or.inr h')

/-- Every node of a successful recursive-DFS result lies on the accumulated
path, equals the start node, or is a node of the graph. -/
theorem dfsAux_mem (g : Graph) (goal : Node) :
    ∀ fuel s path r, dfsAux g goal fuel s path = some (some r) →
      ∀ x ∈ r, x ∈ path ∨ x = s ∨ x ∈ g.nodeList := by
  intro fuel
  induction fuel with
  | zero => intro s path r h; simp [dfsAux] at h
  | succ fuel ih =>
    intro s path r h x hx
    rw [dfsAux] at h
    split at h
    · simp only [Option.some.injEq] at h
      rw [← h] at hx
      rcases List.mem_append.1 hx with h' | h'
      · exact Or.inl h'
      · exact Or.inr (Or.inl (List.mem_singleton.1 h'))
    · split at h
      · rcases dfsTry_mem ih _ _ _ h x hx with h' | h' | h'
        · rcases List.mem_append.1 h' with h'' | h''
          · exact Or.inl h''
          · exact Or.inr (Or.inl (List.mem_singleton.1 h''))
        · exact Or.inr (Or.inr (g.neighborsSorted_subset_nodeList s h'))
        · exact Or.inr (Or.inr h')
      · simp at h

/-- Counterexample to the claim that both DFS variants return the "no path"
sentinel whenever an endpoint is absent: on the empty graph, with the absent
node `0` as both start and goal, `dfs_path` returns the one-node path `[0]`
because its `start == goal` check precedes its membership check. -/
theorem dfs_absent_counterexample :
    (0 : Node) ∉ (Graph.mk []).nodeList ∧ dfs_path ⟨[]⟩ 0 0 = some [0] :=
  ⟨by simp [Graph.nodeList], by rfl⟩

/-- C5 (amended): when start or goal is absent from the graph, the iterative
DFS always returns the "no path" sentinel, and the recursive DFS does too
except in the `start == goal` case, where it returns the one-node path
`[start]`; neither signals a fault. -/
theorem dfs_absent_endpoint (g : Graph) (s t : Node)
    (h : s ∉ g.nodeList ∨ t ∉ g.nodeList) :
    dfs_path_iterative g s t = none ∧
    (s ≠ t → dfs_path g s t = none) ∧
    (s = t → dfs_path g s t = some [s]) := by
  refine ⟨?_, ?_, ?_⟩
  · rw [dfs_path_iterative, if_neg]
    rintro ⟨hs, ht⟩
    rcases h with h | h
    · exact h hs
    · exact h ht
  · intro hst
    rcases hr : dfsAux g t (dfsFuel g) s [] with _ | r
    · simp [dfs_path, hr]
    · rcases r with _ | r
      · simp [dfs_path, hr]
      · exfalso
        have hlast := dfsAux_last g t _ _ _ _ hr
        have ht : t ∈ r := List.mem_of_mem_getLast? hlast
        rcases dfsAux_mem g t _ _ _ _ hr t ht with h' | h' | h'
        · simp at h'
        · exact hst h'.symm
        · rcases h with hab | hab
          · rw [dfsFuel, dfsAux] at hr
            rw [if_neg hst, if_neg hab] at hr
            simp at hr
          · exact hab h'
  · intro hst
    subst hst
    rw [dfs_path, dfsFuel, dfsAux]
    simp

/-- Witness for the amended C5 at the empty graph with distinct absent
endpoints. -/
theorem dfs_absent_endpoint_witness :
    dfs_path_iterative ⟨[]⟩ 0 1 = none ∧
    ((0 : Node) ≠ 1 → dfs_path ⟨[]⟩ 0 1 = none) ∧
    ((0 : Node) = 1 → dfs_path ⟨[]⟩ 0 1 = some [0]) :=
  dfs_absent_endpoint ⟨[]⟩ 0 1 (Or.inl (by simp [Graph.nodeList]))

/-- A member of a list is in its `dropLast` or is its last element. -/
theorem mem_dropLast_or_getLast? {l : List Node} {x : Node} (h : x ∈ l) :
    x ∈ l.dropLast ∨ l.getLast? = some x := by
  rcases l with _ | ⟨a, as⟩
  · simp at h
  · have hne : (a :: as) ≠ [] := by simp
    rw [← List.dropLast_append_getLast hne] at h
    rcases List.mem_append.1 h with h' | h'
    · exact Or.inl h'
    · right
      rw [List.getLast?_eq_getLast _ hne]
      have := List.mem_singleton.1 h'
      rw [this]

/-- If every result of `next` on a duplicate-free chained path is a
duplicate-free chain, so is every successful result of the neighbor loop. -/
theorem dfsTry_valid {g : Graph} {next : Node → List Node → Option (Option (List Node))}
    (hnext : ∀ n path r, (path ++ [n]).Nodup →
      List.Chain' (fun a b => g.isEdge a b) (path ++ [n]) →
      next n path = some (some r) →
      r.Nodup ∧ List.Chain' (fun a b => g.isEdge a b) r) :
    ∀ ns path r, path.Nodup →
      List.Chain' (fun a b => g.isEdge a b) path →
      (∀ n ∈ ns, ∃ x, path.getLast? = some x ∧ g.isEdge x n) →
      dfsTry next ns path = some (some r) →
      r.Nodup ∧ List.Chain' (fun a b => g.isEdge a b) r := by
  intro ns
  induction ns with
  | nil => intro path r _ _ _ h; simp [dfsTry] at h
  | cons n ns ih =>
    intro path r hnd hch hadj h
    rw [dfsTry] at h
    split at h
    · exact ih _ _ hnd hch (fun m hm => hadj m (List.mem_cons_of_mem _ hm)) h
    · rename_i hnp
      rcases hn : next n path with _ | r'
      · rw [hn] at h; simp at h
      · rw [hn] at h
        rcases r' with _ | r''
        · exact ih _ _ hnd hch (fun m hm => hadj m (List.mem_cons_of_mem _ hm)) h
        · simp only [Option.some.injEq] at h
          subst h
          obtain ⟨x, hx, hxe⟩ := hadj n (List.mem_cons_self _ _)
          refine hnext n path r'' ?_ ?_ hn
          · exact List.nodup_append.2 ⟨hnd, List.nodup_singleton n,
              fun a ha ha' => hnp ((List.mem_singleton.1 ha') ▸ ha)⟩
          · refine List.chain'_append.2 ⟨hch, List.chain'_singleton n, ?_⟩
            intro a ha b hb
            rw [hx] at ha
            simp only [Option.mem_def, Option.some.injEq] at ha
            simp only [List.head?_cons, Option.mem_def, Option.some.injEq] at hb
            rw [← ha, ← hb] at *
            exact ha ▸ hb ▸ hxe
  
/-- Any successful result of the recursive DFS is a duplicate-free edge
chain, provided the accumulated path extended by the start node is one. -/
theorem dfsAux_valid (g : Graph) (goal : Node) :
    ∀ fuel s path r, (path ++ [s]).Nodup →
      List.Chain' (fun a b => g.isEdge a b) (path ++ [s]) →
      dfsAux g goal fuel s path = some (some r) →
      r.Nodup ∧ List.Chain' (fun a b => g.isEdge a b) r := by
  intro fuel
  induction fuel with
  | zero => intro s path r _ _ h; simp [dfsAux] at h
  | succ fuel ih =>
    intro s path r hnd hch h
    rw [dfsAux] at h
    split at h
    · simp only [Option.some.injEq] at h
      exact ⟨h ▸ hnd, h ▸ hch⟩
    · split at h
      · refine dfsTry_valid ih _ _ _ hnd hch ?_ h
        intro n hn
        exact ⟨s, List.getLast?_concat _,
          Graph.mem_neighborsSorted.1 hn⟩
      · simp at h

/-- Pushing unvisited neighbors of `current` onto a stack preserves the
iterative-DFS stack invariant, provided `current`'s path ends at `current`,
is a duplicate-free chain, and lies inside the visited set. -/
theorem dfsIter_push_inv (g : Graph) (visited2 : List Node) (current : Node)
    (path : List Node)
    (hpath : path.getLast? = some current ∧ path.Nodup ∧
      List.Chain' (fun a b => g.isEdge a b) path ∧ ∀ x ∈ path, x ∈ visited2) :
    ∀ (l : List Node) (rest : List (Node × List Node)),
      (∀ n ∈ l, g.isEdge current n) →
      (∀ pr ∈ rest, pr.2.getLast? = some pr.1 ∧ pr.2.Nodup ∧
        List.Chain' (fun a b => g.isEdge a b) pr.2 ∧
        ∀ x ∈ pr.2.dropLast, x ∈ visited2) →
      ∀ pr ∈ l.foldl
          (fun st n => if n ∈ visited2 then st else (n, path ++ [n]) :: st) rest,
        pr.2.getLast? = some pr.1 ∧ pr.2.Nodup ∧
        List.Chain' (fun a b => g.isEdge a b) pr.2 ∧
        ∀ x ∈ pr.2.dropLast, x ∈ visited2 := by
  intro l
  induction l with
  | nil => intro rest _ hrest; simpa using hrest
  | cons n l ihl =>
    intro rest hladj hrest
    simp only [List.foldl_cons]
    refine ihl _ (fun m hm => hladj m (List.mem_cons_of_mem _ hm)) ?_
    by_cases hnv2 : n ∈ visited2
    · simpa [hnv2] using hrest
    · simp only [if_neg hnv2]
      intro pr hpr
      rcases List.mem_cons.1 hpr with hpr' | hpr'
      · subst hpr'
        refine ⟨List.getLast?_concat _, ?_, ?_, ?_⟩
        · refine List.nodup_append.2 ⟨hpath.2.1, List.nodup_singleton n, ?_⟩
          intro a ha ha'
          rw [List.mem_singleton.1 ha'] at ha
          exact hnv2 (hpath.2.2.2 n ha)
        · refine List.chain'_append.2 ⟨hpath.2.2.1, List.chain'_singleton n, ?_⟩
          intro a ha b hb
          rw [hpath.1] at ha
          simp only [Option.mem_def, Option.some.injEq] at ha
          simp only [List.head?_cons, Option.mem_def, Option.some.injEq] at hb
          subst ha; subst hb
          exact hladj n (List.mem_cons_self _ _)
        · rw [List.dropLast_concat]
          exact hpath.2.2.2
      · exact hrest pr hpr'

/-- Any successful result of the iterative DFS loop is a duplicate-free edge
chain, given the stack invariant: each entry's path ends at its node, is a
duplicate-free chain, and has all nodes before its last one visited. -/
theorem dfsIter_valid (g : Graph) (goal : Node) :
    ∀ fuel stack visited r,
      (∀ pr ∈ stack, pr.2.getLast? = some pr.1 ∧ pr.2.Nodup ∧
        List.Chain' (fun a b => g.isEdge a b) pr.2 ∧
        ∀ x ∈ pr.2.dropLast, x ∈ visited) →
      dfsIterAux g fuel stack goal visited = some (some r) →
      r.Nodup ∧ List.Chain' (fun a b => g.isEdge a b) r := by
  intro fuel
  induction fuel with
  | zero => intro stack visited r _ h; simp [dfsIterAux] at h
  | succ fuel ih =>
    intro stack visited r hinv h
    match stack with
    | [] => simp [dfsIterAux] at h
    | (current, path) :: rest =>
      rw [dfsIterAux] at h
      split at h
      · simp only [Option.some.injEq] at h
        have hh := hinv (current, path) (List.mem_cons_self _ _)
        exact ⟨h ▸ hh.2.1, h ▸ hh.2.2.1⟩
      · split at h
        · exact ih rest visited r
            (fun pr hpr => hinv pr (List.mem_cons_of_mem _ hpr)) h
        · rename_i hng hnv
          refine ih _ _ _ ?_ h
          have hh := hinv (current, path) (List.mem_cons_self _ _)
          have hpathmem : ∀ x ∈ path, x ∈ current :: visited := by
            intro x hx
            rcases mem_dropLast_or_getLast? hx with h' | h'
            · exact List.mem_cons_of_mem _ (hh.2.2.2 x h')
            · rw [hh.1] at h'
              cases h'
              exact List.mem_cons_self _ _
          refine dfsIter_push_inv g (current :: visited) current path
            ⟨hh.1, hh.2.1, hh.2.2.1, hpathmem⟩ _ _ ?_ ?_
          · intro n hn
            rw [List.mem_reverse] at hn
            exact Graph.mem_neighborsSorted.1 hn
          · intro pr hpr
            have := hinv pr (List.mem_cons_of_mem _ hpr)
            exact ⟨this.1, this.2.1, this.2.2.1,
              fun x hx => List.mem_cons_of_mem _ (this.2.2.2 x hx)⟩

/-- C3: whenever either DFS variant returns a path rather than the "no path"
sentinel, every consecutive pair of nodes in it is an edge of the graph and
no node occurs in it more than once. -/
theorem dfs_results_are_simple_paths (g : Graph) (s t : Node) :
    (∀ p, dfs_path g s t = some p →
      List.Chain' (fun a b => g.isEdge a b) p ∧ p.Nodup) ∧
    (∀ p, dfs_path_iterative g s t = some p →
      List.Chain' (fun a b => g.isEdge a b) p ∧ p.Nodup) := by
  constructor
  · intro p h
    rw [dfs_path, Option.join_eq_some] at h
    have := dfsAux_valid g t (dfsFuel g) s [] p
      (by simp) (by simp [List.chain'_singleton]) h
    exact ⟨this.2, this.1⟩
  · intro p h
    rw [dfs_path_iterative] at h
    split at h
    · rw [Option.join_eq_some] at h
      have := dfsIter_valid g t (dfsIterFuel g) [(s, [s])] [] p ?_ h
      · exact ⟨this.2, this.1⟩
      · intro pr hpr
        rw [List.mem_singleton] at hpr
        subst hpr
        exact ⟨rfl, List.nodup_singleton _, List.chain'_singleton _, by simp⟩
    · simp at h

/-- Witness for C3 on the chain `0 – 1 – 2`: both variants return `[0,1,2]`,
which is an edge chain without repeats. -/
theorem dfs_results_are_simple_paths_witness :
    (List.Chain' (fun a b => demoChain.isEdge a b) [0, 1, 2] ∧
      ([0, 1, 2] : List Node).Nodup) ∧
    (List.Chain' (fun a b => demoChain.isEdge a b) [0, 1, 2] ∧
      ([0, 1, 2] : List Node).Nodup) :=
  ⟨(dfs_results_are_simple_paths demoChain 0 2).1 [0, 1, 2] (by rfl),
   (dfs_results_are_simple_paths demoChain 0 2).2 [0, 1, 2] (by rfl)⟩

/-- The recursive DFS never exhausts its fuel once the fuel exceeds the
number of graph nodes not yet on the accumulated path: each recursion level
extends the duplicate-free path by one node of the graph. -/
theorem dfsAux_isSome (g : Graph) (goal : Node) :
    ∀ fuel s path, path.Nodup → (∀ x ∈ path, x ∈ g.nodeList) → s ∉ path →
      g.nodeList.length < fuel + path.length →
      (dfsAux g goal fuel s path).isSome := by
  intro fuel
  induction fuel with
  | zero =>
    intro s path hnd hsub _ hlt
    exact absurd (nodup_subset_length_le hnd hsub) (by omega)
  | succ fuel ih =>
    intro s path hnd hsub hsp hlt
    rw [dfsAux]
    split
    · rfl
    · split
      · rename_i hs
        have hpath2 : (path ++ [s]).Nodup := List.nodup_append.2
          ⟨hnd, List.nodup_singleton s, fun a ha ha' =>
            hsp ((List.mem_singleton.1 ha') ▸ ha)⟩
        have hsub2 : ∀ x ∈ path ++ [s], x ∈ g.nodeList := by
          intro x hx
          rcases List.mem_append.1 hx with h' | h'
          · exact hsub x h'
          · exact (List.mem_singleton.1 h') ▸ hs
        have hgen : ∀ ns, (dfsTry (dfsAux g goal fuel) ns (path ++ [s])).isSome := by
          intro ns
          induction ns with
          | nil => rfl
          | cons n ns ihn =>
            rw [dfsTry]
            split
            · exact ihn
            · rename_i hnp
              have := ih n (path ++ [s]) hpath2 hsub2 hnp
                (by simp only [List.length_append, List.length_singleton]; omega)
              rcases Option.isSome_iff_exists.1 this with ⟨o, ho⟩
              rw [ho]
              rcases o with _ | r
              · exact ihn
              · rfl
        exact hgen _
      · rfl

/-- Raising the fuel of the neighbor loop preserves any already-delivered
verdict, provided this holds for the next recursion level. -/
theorem dfsTry_mono {next next' : Node → List Node → Option (Option (List Node))}
    (hstep : ∀ n p o, next n p = some o → next' n p = some o) :
    ∀ ns path o, dfsTry next ns path = some o → dfsTry next' ns path = some o := by
  intro ns
  induction ns with
  | nil => intro path o h; simpa [dfsTry] using h
  | cons n ns ih =>
    intro path o h
    rw [dfsTry] at h
    rw [dfsTry]
    by_cases hmem : n ∈ path
    · rw [if_pos hmem] at h ⊢
      exact ih _ _ h
    · rw [if_neg hmem] at h ⊢
      rcases hn : next n path with _ | r'
      · rw [hn] at h; simp at h
      · rw [hn] at h
        rw [hstep _ _ _ hn]
        rcases r' with _ | r''
        · exact ih _ _ h
        · exact h

/-- Raising the fuel of the recursive DFS preserves any already-delivered
verdict. -/
theorem dfsAux_mono (g : Graph) (goal : Node) :
    ∀ fuel fuel' s path o, fuel ≤ fuel' →
      dfsAux g goal fuel s path = some o → dfsAux g goal fuel' s path = some o := by
  have hstep : ∀ fuel s path o, dfsAux g goal fuel s path = some o →
      dfsAux g goal (fuel + 1) s path = some o := by
    intro fuel
    induction fuel with
    | zero => intro s path o h; simp [dfsAux] at h
    | succ fuel ih =>
      intro s path o h
      rw [dfsAux] at h
      rw [dfsAux]
      by_cases hgoal : s = goal
      · rw [if_pos hgoal] at h ⊢
        exact h
      · rw [if_neg hgoal] at h ⊢
        by_cases hs : s ∈ g.nodeList
        · rw [if_pos hs] at h ⊢
          exact dfsTry_mono ih _ _ _ h
        · rw [if_neg hs] at h ⊢
          exact h
  intro fuel fuel' s path o hle h
  induction fuel', hle using Nat.le_induction with
  | base => exact h
  | succ fuel' hle ih => exact hstep _ _ _ _ ih

/-- C9: for every finite graph and endpoints, the recursive DFS terminates:
with fuel exceeding the number of distinct nodes (depth is bounded by graph
size) it never exhausts its fuel, and adding more fuel leaves its verdict
unchanged. -/
theorem dfs_path_terminates (g : Graph) (s t : Node) :
    (dfsAux g t (dfsFuel g) s []).isSome ∧
    ∀ fuel, dfsFuel g ≤ fuel →
      dfsAux g t fuel s [] = dfsAux g t (dfsFuel g) s [] := by
  have h1 : (dfsAux g t (dfsFuel g) s []).isSome :=
    dfsAux_isSome g t (dfsFuel g) s [] List.nodup_nil (by simp) (by simp)
      (by simp [dfsFuel])
  refine ⟨h1, fun fuel hf => ?_⟩
  rcases Option.isSome_iff_exists.1 h1 with ⟨o, ho⟩
  rw [ho]
  exact dfsAux_mono g t _ _ _ _ _ hf ho

/-- Witness for C9 on the chain `0 – 1 – 2`: the sufficient fuel is `5`, and
fuel `7` gives the same verdict. -/
theorem dfs_path_terminates_witness :
    dfsAux demoChain 2 7 0 [] = dfsAux demoChain 2 (dfsFuel demoChain) 0 [] :=
  (dfs_path_terminates demoChain 0 2).2 7 (by decide)

/-- Comparing a scaled rational against a scaled extended rational is the
same as comparing the originals, for a positive scale factor. -/
theorem coe_mul_lt_map_iff (x : WithTop ℚ) (q k : ℚ) (hk : 0 < k) :
    ((k * q : ℚ) : WithTop ℚ) < x.map (fun w => k * w) ↔ (q : WithTop ℚ) < x := by
  cases x with
  | top => simp only [WithTop.map_top, iff_true, WithTop.coe_lt_top]
  | coe w =>
    rw [WithTop.map_coe, WithTop.coe_lt_coe, WithTop.coe_lt_coe]
    exact mul_lt_mul_left hk

/-- Scaling weights leaves the node list unchanged. -/
theorem scaleGraph_nodeList (k : ℚ) (g : Graph) :
    (scaleGraph k g).nodeList = g.nodeList := by
  show ((g.edges.map _).flatMap _).dedup = _
  rw [List.flatMap_map]
  rfl

/-- Scaling weights leaves adjacency unchanged. -/
theorem scaleGraph_adj (k : ℚ) (g : Graph) : (scaleGraph k g).adj = g.adj := by
  funext x
  show (g.edges.map _).filterMap _ = _
  rw [List.filterMap_map]
  rfl

/-- An edge relation witness yields a successful weight lookup. -/
theorem isEdge_exists_find {g : Graph} {a b : Node} (h : g.isEdge a b) :
    ∃ e ∈ g.edges,
      ((e.ep1 == a && e.ep2 == b) || (e.ep1 == b && e.ep2 == a)) = true := by
  rw [Graph.isEdge, Graph.adj, List.mem_filterMap] at h
  obtain ⟨e, he, hfe⟩ := h
  refine ⟨e, he, ?_⟩
  split at hfe
  · rename_i h1
    cases hfe
    simp [h1]
  · split at hfe
    · rename_i h1 h2
      cases hfe
      simp [h1, h2]
    · cases hfe

/-- On an edge of a fully weighted graph, scaling the graph scales the
resolved weight. -/
theorem scaleGraph_edgeWeight (k : ℚ) {g : Graph} (hw : AllWeighted g) {a b : Node}
    (hab : g.isEdge a b) :
    (scaleGraph k g).edgeWeight a b = k * g.edgeWeight a b := by
  obtain ⟨e0, he0, hp0⟩ := isEdge_exists_find hab
  rcases hfind : g.edges.find? (fun e =>
      (e.ep1 == a && e.ep2 == b) || (e.ep1 == b && e.ep2 == a)) with _ | e
  · exfalso
    have hsome : (g.edges.find? (fun e =>
        (e.ep1 == a && e.ep2 == b) || (e.ep1 == b && e.ep2 == a))).isSome :=
      List.find?_isSome.2 ⟨e0, he0, hp0⟩
    rw [hfind] at hsome
    simp at hsome
  · have he : e ∈ g.edges := List.mem_of_find?_eq_some hfind
    obtain ⟨w, hwe⟩ := Option.isSome_iff_exists.1 (hw e he)
    have h1 : g.edgeWeight a b = w := by
      rw [Graph.edgeWeight, hfind]
      show e.weight.getD 1 = w
      rw [hwe]
      rfl
    have h2 : (scaleGraph k g).edgeWeight a b = k * w := by
      rw [Graph.edgeWeight]
      have hrw : (scaleGraph k g).edges.find? (fun e =>
          (e.ep1 == a && e.ep2 == b) || (e.ep1 == b && e.ep2 == a))
          = some { e with weight := e.weight.map (fun w => k * w) } := by
        show (g.edges.map _).find? _ = _
        rw [List.find?_map]
        have heq : g.edges.find? ((fun e : GEdge =>
            (e.ep1 == a && e.ep2 == b) || (e.ep1 == b && e.ep2 == a)) ∘
            (fun e : GEdge => { e with weight := e.weight.map (fun w => k * w) }))
            = some e := hfind
        rw [heq]
        rfl
      rw [hrw]
      show ({ e with weight := e.weight.map (fun w => k * w) } : GEdge).weight.getD 1
        = k * w
      rw [hwe]
      rfl
    rw [h1, h2]

/-- The pairwise heap minimum commutes with positive scaling. -/
theorem lexMin_scale (k : ℚ) (hk : 0 < k) (a b : ℚ × Node) :
    lexMin (scaleEntry k a) (scaleEntry k b) = scaleEntry k (lexMin a b) := by
  unfold lexMin scaleEntry
  simp only [mul_lt_mul_left hk]
  split_ifs <;> rfl

/-- Entry scaling is injective for a positive factor. -/
theorem scaleEntry_injective (k : ℚ) (hk : 0 < k) :
    Function.Injective (scaleEntry k) := by
  intro u v huv
  unfold scaleEntry at huv
  rw [Prod.mk.injEq] at huv
  obtain ⟨h1, h2⟩ := huv
  exact Prod.ext (mul_left_cancel₀ (ne_of_gt hk) h1) h2

/-- Erasing a scaled entry from a scaled list is the scaled erase. -/
theorem map_erase_scaleEntry (k : ℚ) (hk : 0 < k) (m : ℚ × Node) :
    ∀ l : List (ℚ × Node),
      (l.map (scaleEntry k)).erase (scaleEntry k m) =
        (l.erase m).map (scaleEntry k) := by
  have hbeq : ∀ a : ℚ × Node, (scaleEntry k a == scaleEntry k m) = (a == m) := by
    intro a
    by_cases h : a = m
    · subst h; simp
    · have h2 : scaleEntry k a ≠ scaleEntry k m :=
        fun hc => h (scaleEntry_injective k hk hc)
      simp [h, h2]
  intro l
  induction l with
  | nil => rfl
  | cons a l ih =>
    simp only [List.map_cons, List.erase_cons, hbeq a]
    by_cases h : (a == m) = true
    · simp [h]
    · simp only [h, if_false, Bool.false_eq_true, List.map_cons, ih]

/-- The heap pop commutes with positive scaling of the entries. -/
theorem popMin_scale (k : ℚ) (hk : 0 < k) (pq : List (ℚ × Node)) :
    popMin (pq.map (scaleEntry k)) =
      (popMin pq).map (fun pr => (scaleEntry k pr.1, pr.2.map (scaleEntry k))) := by
  rcases pq with _ | ⟨x, xs⟩
  · rfl
  · simp only [List.map_cons, popMin]
    have hfold : ∀ (l : List (ℚ × Node)) (a : ℚ × Node),
        (l.map (scaleEntry k)).foldl lexMin (scaleEntry k a) =
          scaleEntry k (l.foldl lexMin a) := by
      intro l
      induction l with
      | nil => intro a; rfl
      | cons b l ih =>
        intro a
        simp only [List.map_cons, List.foldl_cons, lexMin_scale k hk, ih]
    rw [hfold, ← List.map_cons, map_erase_scaleEntry k hk]
    rfl

/-- Companion of `coe_mul_lt_map_iff` with the scaled value on the left. -/
theorem map_lt_coe_mul_iff (x : WithTop ℚ) (q k : ℚ) (hk : 0 < k) :
    x.map (fun w => k * w) < ((k * q : ℚ) : WithTop ℚ) ↔ x < (q : WithTop ℚ) := by
  cases x with
  | top =>
    rw [WithTop.map_top]
    constructor <;> intro h <;> exact absurd h not_top_lt
  | coe w =>
    rw [WithTop.map_coe, WithTop.coe_lt_coe, WithTop.coe_lt_coe]
    exact mul_lt_mul_left hk

/-- One relaxation step commutes with positive scaling of weights and
state. -/
theorem relax_scale (k : ℚ) (hk : 0 < k) {g : Graph} (hw : AllWeighted g)
    (current : Node) (d : ℚ) (st : DState) (n : Node) (hn : g.isEdge current n) :
    relax (scaleGraph k g) current (k * d) (scaleState k st) n =
      scaleState k (relax g current d st n) := by
  unfold relax
  simp only [scaleState]
  by_cases hv : n ∈ st.visited
  · rw [if_pos hv, if_pos hv]
  · rw [if_neg hv, if_neg hv]
    rw [scaleGraph_edgeWeight k hw hn]
    have harith : k * d + k * g.edgeWeight current n
        = k * (d + g.edgeWeight current n) := by ring
    rw [harith]
    by_cases hlt : ((d + g.edgeWeight current n : ℚ) : WithTop ℚ) < st.dist n
    · rw [if_pos ((coe_mul_lt_map_iff (st.dist n) _ k hk).2 hlt), if_pos hlt]
      have hdist : Function.update (fun m => (st.dist m).map (fun w => k * w)) n
          ((k * (d + g.edgeWeight current n) : ℚ) : WithTop ℚ)
          = fun m => ((Function.update st.dist n
              ((d + g.edgeWeight current n : ℚ) : WithTop ℚ)) m).map
                (fun w => k * w) := by
        funext m
        by_cases hm : m = n
        · subst hm
          rw [Function.update_same, Function.update_same]
          rfl
        · rw [Function.update_noteq hm, Function.update_noteq hm]
      rw [hdist]
      rfl
    · rw [if_neg (fun hc => hlt ((coe_mul_lt_map_iff (st.dist n) _ k hk).1 hc)),
        if_neg hlt]

/-- The relaxation fold over a neighbor list commutes with scaling. -/
theorem relaxFold_scale (k : ℚ) (hk : 0 < k) {g : Graph} (hw : AllWeighted g)
    (current : Node) (d : ℚ) :
    ∀ (l : List Node), (∀ n ∈ l, g.isEdge current n) → ∀ st : DState,
      List.foldl (relax (scaleGraph k g) current (k * d)) (scaleState k st) l =
        scaleState k (List.foldl (relax g current d) st l) := by
  intro l
  induction l with
  | nil => intro _ st; rfl
  | cons n l ih =>
    intro hl st
    simp only [List.foldl_cons]
    rw [relax_scale k hk hw current d st n (hl n (List.mem_cons_self _ _))]
    exact ih (fun m hm => hl m (List.mem_cons_of_mem _ hm)) _

/-- The whole Dijkstra loop commutes with positive scaling of weights and
state. -/
theorem dijkstraLoop_scale (k : ℚ) (hk : 0 < k) {g : Graph} (hw : AllWeighted g) :
    ∀ fuel st, dijkstraLoop (scaleGraph k g) fuel (scaleState k st) =
      scaleState k (dijkstraLoop g fuel st) := by
  intro fuel
  induction fuel with
  | zero => intro st; rfl
  | succ fuel ih =>
    intro st
    rw [dijkstraLoop, dijkstraLoop]
    have hpq : (scaleState k st).pq = st.pq.map (scaleEntry k) := rfl
    rw [hpq, popMin_scale k hk]
    rcases hpop : popMin st.pq with _ | ⟨⟨d, current⟩, rest⟩
    · rfl
    · simp only [Option.map_some']
      dsimp only [scaleEntry, scaleState]
      by_cases hv : current ∈ st.visited
      · rw [if_pos hv, if_pos hv]
        exact ih { st with pq := rest }
      · rw [if_neg hv, if_neg hv]
        by_cases hstale : st.dist current < (d : WithTop ℚ)
        · have hsc : (st.dist current).map (fun w => k * w)
              < ((k * d : ℚ) : WithTop ℚ) :=
            (map_lt_coe_mul_iff (st.dist current) d k hk).2 hstale
          rw [if_pos hstale, if_pos hsc]
          exact ih { st with pq := rest, visited := current :: st.visited }
        · have hsc : ¬ (st.dist current).map (fun w => k * w)
              < ((k * d : ℚ) : WithTop ℚ) :=
            fun hc => hstale ((map_lt_coe_mul_iff (st.dist current) d k hk).1 hc)
          rw [if_neg hstale, if_neg hsc]
          rw [scaleGraph_adj]
          exact (congrArg (dijkstraLoop (scaleGraph k g) fuel)
            (relaxFold_scale k hk hw current d (g.adj current) (fun n hn => hn)
              ⟨st.dist, st.prev, rest, current :: st.visited⟩)).trans (ih _)

/-- C7: on a fully weighted graph, running `dijkstra` on the graph with all
edge weights multiplied by a positive constant `k` yields, node by node, `k`
times the original distance map, with infinity mapping to infinity. -/
theorem dijkstra_scales_with_weights (g : Graph) (s : Node) (k : ℚ) (hk : 0 < k)
    (hw : AllWeighted g) (t : Node) :
    (dijkstra (scaleGraph k g) s).1 t = ((dijkstra g s).1 t).map (fun w => k * w) := by
  show (dijkstraLoop (scaleGraph k g) (dijkstraFuel (scaleGraph k g))
      (dijkstraInit s)).dist t = _
  have hfuel : dijkstraFuel (scaleGraph k g) = dijkstraFuel g := by
    rw [dijkstraFuel, dijkstraFuel, scaleGraph_nodeList, scaleGraph_adj]
  rw [hfuel]
  have hdist0 : (fun n => ((dijkstraInit s).dist n).map (fun w => k * w))
      = (dijkstraInit s).dist := by
    funext m
    show ((Function.update (fun _ => (⊤ : WithTop ℚ)) s 0 m).map (fun w => k * w))
      = Function.update (fun _ => (⊤ : WithTop ℚ)) s 0 m
    by_cases hm : m = s
    · subst hm
      rw [Function.update_same]
      show ((0 : ℚ) : WithTop ℚ).map (fun w => k * w) = (0 : WithTop ℚ)
      rw [WithTop.map_coe, mul_zero]
      rfl
    · rw [Function.update_noteq hm]
      rfl
  have hpq0 : ((dijkstraInit s).pq.map (scaleEntry k)) = (dijkstraInit s).pq := by
    show [((k * 0 : ℚ), s)] = [((0 : ℚ), s)]
    rw [mul_zero]
  have hinit : scaleState k (dijkstraInit s) = dijkstraInit s := by
    unfold scaleState
    rw [hdist0, hpq0]
  conv_lhs => rw [← hinit]
  rw [dijkstraLoop_scale k hk hw]
  rfl

/-- Witness for C7 on the weighted triangle with `k = 2`: the scaled run's
distance map at node `2` is twice the original. -/
theorem dijkstra_scales_with_weights_witness :
    (dijkstra (scaleGraph 2 demoWeighted) 0).1 2
      = ((dijkstra demoWeighted 0).1 2).map (fun w => (2 : ℚ) * w) :=
  dijkstra_scales_with_weights demoWeighted 0 2 (by norm_num)
    (by intro e he; fin_cases he <;> rfl) 2

/-- The pairwise heap minimum is one of its arguments. -/
theorem lexMin_choice (a b : ℚ × Node) : lexMin a b = a ∨ lexMin a b = b := by
  unfold lexMin
  split_ifs <;> simp

/-- The folded heap minimum is the seed or a list member. -/
theorem foldl_lexMin_mem : ∀ (xs : List (ℚ × Node)) (a : ℚ × Node),
    xs.foldl lexMin a = a ∨ xs.foldl lexMin a ∈ xs := by
  intro xs
  induction xs with
  | nil => intro a; exact Or.inl rfl
  | cons b xs ih =>
    intro a
    simp only [List.foldl_cons]
    rcases ih (lexMin a b) with h | h
    · rcases lexMin_choice a b with h' | h'
      · exact Or.inl (h.trans h')
      · rw [h, h']
        exact Or.inr (List.mem_cons_self _ _)
    · exact Or.inr (List.mem_cons_of_mem _ h)

/-- A successful heap pop returns a queue member together with the queue
with that occurrence removed. -/
theorem popMin_spec {pq : List (ℚ × Node)} {pr : (ℚ × Node) × List (ℚ × Node)}
    (h : popMin pq = some pr) : pr.1 ∈ pq ∧ pr.2 = pq.erase pr.1 := by
  rcases pq with _ | ⟨x, xs⟩
  · simp [popMin] at h
  · simp only [popMin, Option.some.injEq] at h
    subst h
    constructor
    · rcases foldl_lexMin_mem xs x with h' | h'
      · rw [h']
        exact List.mem_cons_self _ _
      · exact List.mem_cons_of_mem _ h'
    · rfl

/-- A relaxation step never changes the visited set. -/
theorem relax_visited (g : Graph) (c : Node) (d : ℚ) (st : DState) (n : Node) :
    (relax g c d st n).visited = st.visited := by
  simp only [relax]
  split_ifs <;> rfl

/-- A relaxation step preserves the weight-independent invariant when the
relaxing node is visited and the relaxed node is a graph node. -/
theorem relax_base {g : Graph} {s : Node} {st : DState} (current : Node) (d : ℚ)
    (hc : current ∈ st.visited) (hinv : DInvBase g s st) (n : Node)
    (hn : n ∈ g.nodeList) : DInvBase g s (relax g current d st n) := by
  obtain ⟨h1, h2, h3, h4⟩ := hinv
  simp only [relax]
  by_cases hv : n ∈ st.visited
  · rw [if_pos hv]
    exact ⟨h1, h2, h3, h4⟩
  · rw [if_neg hv]
    by_cases hlt : ((d + g.edgeWeight current n : ℚ) : WithTop ℚ) < st.dist n
    · rw [if_pos hlt]
      refine ⟨h1, h2, ?_, ?_⟩
      · intro pr hpr
        dsimp only at hpr
        rcases List.mem_cons.1 hpr with hpr' | hpr'
        · subst hpr'
          exact Or.inr hn
        · exact h3 pr hpr'
      · intro v u hvu
        dsimp only at hvu ⊢
        by_cases hvn : v = n
        · subst hvn
          rw [Function.update_same] at hvu
          cases hvu
          exact ⟨hc, fun hmem => absurd hmem hv⟩
        · rw [Function.update_noteq hvn] at hvu
          exact h4 v u hvu
    · rw [if_neg hlt]
      exact ⟨h1, h2, h3, h4⟩

/-- The relaxation fold preserves the weight-independent invariant. -/
theorem relaxFold_base {g : Graph} {s : Node} (current : Node) (d : ℚ) :
    ∀ (l : List Node) (st : DState), current ∈ st.visited → DInvBase g s st →
      (∀ n ∈ l, n ∈ g.nodeList) →
      DInvBase g s (List.foldl (relax g current d) st l) := by
  intro l
  induction l with
  | nil => intro st _ hinv _; exact hinv
  | cons n l ih =>
    intro st hc hinv hl
    simp only [List.foldl_cons]
    refine ih _ ?_ ?_ (fun m hm => hl m (List.mem_cons_of_mem _ hm))
    · rw [relax_visited]
      exact hc
    · exact relax_base current d hc hinv n (hl n (List.mem_cons_self _ _))

/-- The Dijkstra loop preserves the weight-independent invariant. -/
theorem dijkstraLoop_base {g : Graph} {s : Node} :
    ∀ (fuel : ℕ) (st : DState), DInvBase g s st →
      DInvBase g s (dijkstraLoop g fuel st) := by
  intro fuel
  induction fuel with
  | zero => intro st hinv; exact hinv
  | succ fuel ih =>
    intro st hinv
    obtain ⟨h1, h2, h3, h4⟩ := hinv
    rcases hpop : popMin st.pq with _ | ⟨⟨d, current⟩, rest⟩
    · rw [dijkstraLoop, hpop]
      exact ⟨h1, h2, h3, h4⟩
    · rw [dijkstraLoop, hpop]
      dsimp only
      obtain ⟨hmem0, hrest0⟩ := popMin_spec hpop
      have hmem : (d, current) ∈ st.pq := hmem0
      have hrest : rest = st.pq.erase (d, current) := hrest0
      have hrest3 : ∀ pr ∈ rest, pr.2 = s ∨ pr.2 ∈ g.nodeList := by
        intro pr hpr
        rw [hrest] at hpr
        exact h3 pr (List.erase_subset _ _ hpr)
      by_cases hv : current ∈ st.visited
      · rw [if_pos hv]
        exact ih _ ⟨h1, h2, hrest3, h4⟩
      · rw [if_neg hv]
        have hcur : current = s ∨ current ∈ g.nodeList := h3 (d, current) hmem
        have hst1 : DInvBase g s
            ⟨st.dist, st.prev, rest, current :: st.visited⟩ := by
          refine ⟨List.nodup_cons.2 ⟨hv, h1⟩, ?_, hrest3, ?_⟩
          · intro v hvmem
            rcases List.mem_cons.1 hvmem with hvmem' | hvmem'
            · exact hvmem' ▸ hcur
            · exact h2 v hvmem'
          · intro v u hvu
            obtain ⟨hu, hvo⟩ := h4 v u hvu
            refine ⟨List.mem_cons_of_mem _ hu, ?_⟩
            intro hvmem
            rcases List.mem_cons.1 hvmem with hvmem' | hvmem'
            · subst hvmem'
              exact ⟨[], st.visited, rfl, hu⟩
            · obtain ⟨l₁, l₂, hsplit, hul⟩ := hvo hvmem'
              exact ⟨current :: l₁, l₂, by rw [hsplit]; rfl, hul⟩
        by_cases hstale : st.dist current < (d : WithTop ℚ)
        · rw [if_pos hstale]
          exact ih _ hst1
        · rw [if_neg hstale]
          refine ih _ (relaxFold_base current d (g.adj current) _ ?_ hst1 ?_)
          · exact List.mem_cons_self _ _
          · exact fun m hm => g.adj_subset_nodeList current hm

/-- `Older` via suffixes: `u` is older than `v` exactly when `u` appears in
the part of the list strictly after the (unique) occurrence of `v`. -/
theorem older_iff_suffix {l : List Node} {u v : Node} :
    Older l u v ↔ ∃ l₂, (v :: l₂) <:+ l ∧ u ∈ l₂ := by
  constructor
  · rintro ⟨l₁, l₂, rfl, hu⟩
    exact ⟨l₂, ⟨l₁, rfl⟩, hu⟩
  · rintro ⟨l₂, ⟨l₁, rfl⟩, hu⟩
    exact ⟨l₁, l₂, rfl, hu⟩

/-- In a duplicate-free list, the suffix starting at a given element is
unique. -/
theorem suffix_cons_nodup_unique {l : List Node} (hnd : l.Nodup) {v : Node}
    {a b : List Node} (ha : (v :: a) <:+ l) (hb : (v :: b) <:+ l) : a = b := by
  have key : ∀ {x y : List Node}, (v :: x) <:+ (v :: y) → (v :: y) <:+ l → x = y := by
    intro x y hxy hyl
    rcases List.suffix_cons_iff.1 hxy with h | h
    · injection h with h1 h2
    · exfalso
      have hvy : v ∈ y := h.mem (List.mem_cons_self _ _)
      have : (v :: y).Nodup := List.Nodup.sublist hyl.sublist hnd
      exact (List.nodup_cons.1 this).1 hvy
  rcases List.suffix_or_suffix_of_suffix ha hb with h | h
  · exact key h hb
  · exact (key h ha).symm

/-- A member of a list starts a proper suffix of it. -/
theorem mem_suffix_decomp {l : List Node} {u : Node} (h : u ∈ l) :
    ∃ a, (u :: a) <:+ l ∧ a.length < l.length := by
  obtain ⟨s, t, rfl⟩ := List.append_of_mem h
  refine ⟨t, ⟨s, rfl⟩, ?_⟩
  simp only [List.length_append, List.length_cons]
  omega

/-- The backward predecessor walk never exhausts its fuel when every
predecessor link descends along a duplicate-free visited list: from a node
whose suffix after it has length `k`, `k + 2` fuel suffices. -/
theorem walkBack_isSome_suffix {l : List Node} (hnd : l.Nodup)
    {prev : Node → Option Node}
    (hP : ∀ v u, prev v = some u → u ∈ l ∧ (v ∈ l → Older l u v)) :
    ∀ (fuel : ℕ) (v : Node) (l₂ : List Node) (acc : List Node),
      (v :: l₂) <:+ l → l₂.length + 2 ≤ fuel →
      (walkBack prev fuel (some v) acc).isSome := by
  intro fuel
  induction fuel with
  | zero =>
    intro v l₂ acc _ hbound
    omega
  | succ fuel ih =>
    intro v l₂ acc hsuf hbound
    rw [walkBack]
    rcases hpv : prev v with _ | u
    · rcases fuel with _ | fuel'
      · omega
      · rw [walkBack]
        rfl
    · obtain ⟨hu, hold⟩ := hP v u hpv
      have hvmem : v ∈ l := hsuf.mem (List.mem_cons_self _ _)
      obtain ⟨l₂'', hsuf'', hu''⟩ := older_iff_suffix.1 (hold hvmem)
      have hl2 : l₂'' = l₂ := suffix_cons_nodup_unique hnd hsuf'' hsuf
      subst hl2
      obtain ⟨a, hsufa, hlen⟩ := mem_suffix_decomp hu''
      have hsufl : (u :: a) <:+ l :=
        hsufa.trans ((List.suffix_cons_iff.2 (Or.inr (List.suffix_refl _))).trans hsuf)
      exact ih u a (acc ++ [v]) hsufl (by omega)

/-- The backward predecessor walk terminates from any starting node with
fuel exceeding the visited-list length by three. -/
theorem walkBack_isSome {l : List Node} (hnd : l.Nodup)
    {prev : Node → Option Node}
    (hP : ∀ v u, prev v = some u → u ∈ l ∧ (v ∈ l → Older l u v)) :
    ∀ (fuel : ℕ) (t : Node) (acc : List Node), l.length + 3 ≤ fuel →
      (walkBack prev fuel (some t) acc).isSome := by
  intro fuel t acc hbound
  rcases fuel with _ | fuel'
  · omega
  · rw [walkBack]
    rcases hpt : prev t with _ | u
    · rcases fuel' with _ | fuel''
      · omega
      · rw [walkBack]
        rfl
    · obtain ⟨hu, -⟩ := hP t u hpt
      obtain ⟨a, hsufa, hlen⟩ := mem_suffix_decomp hu
      exact walkBack_isSome_suffix hnd hP fuel' u a (acc ++ [t]) hsufa (by omega)

/-- Raising the fuel of the backward walk preserves a delivered result. -/
theorem walkBack_mono (prev : Node → Option Node) :
    ∀ fuel fuel' (c : Option Node) (acc r : List Node), fuel ≤ fuel' →
      walkBack prev fuel c acc = some r → walkBack prev fuel' c acc = some r := by
  have hstep : ∀ fuel (c : Option Node) (acc r : List Node),
      walkBack prev fuel c acc = some r →
      walkBack prev (fuel + 1) c acc = some r := by
    intro fuel
    induction fuel with
    | zero => intro c acc r h; simp [walkBack] at h
    | succ fuel ih =>
      intro c acc r h
      rcases c with _ | v
      · rw [walkBack] at h ⊢
        exact h
      · rw [walkBack] at h ⊢
        exact ih _ _ _ h
  intro fuel fuel' c acc r hle h
  induction fuel', hle using Nat.le_induction with
  | base => exact h
  | succ fuel' hle ihm => exact hstep _ _ _ _ ihm

/-- The initial Dijkstra state satisfies the weight-independent invariant. -/
theorem dijkstraInit_base (g : Graph) (s : Node) : DInvBase g s (dijkstraInit s) := by
  refine ⟨List.nodup_nil, by simp [dijkstraInit], ?_, ?_⟩
  · intro pr hpr
    simp only [dijkstraInit, List.mem_singleton] at hpr
    subst hpr
    exact Or.inl rfl
  · intro v u h
    simp [dijkstraInit] at h

/-- C6: for a predecessor map produced by a `dijkstra` run on any graph,
the backward walk from any target node terminates, and whenever it does not
end at the source, `reconstruct_path` returns the empty path rather than
signaling an error. -/
theorem reconstruct_path_unreachable (g : Graph) (s t : Node)
    (hs : s ∈ g.nodeList) (_ht : t ∈ g.nodeList) :
    ∃ l, walkBack (dijkstra g s).2 (g.nodeList.length + 3) (some t) [] = some l ∧
      (l.getLast? ≠ some s →
        ∀ fuel, g.nodeList.length + 3 ≤ fuel →
          reconstruct_path (dijkstra g s).2 s t fuel = some []) := by
  have hbase : DInvBase g s (dijkstraLoop g (dijkstraFuel g) (dijkstraInit s)) :=
    dijkstraLoop_base (dijkstraFuel g) (dijkstraInit s) (dijkstraInit_base g s)
  obtain ⟨hnd, hvis, hpq, hprev⟩ := hbase
  have hsub : (dijkstraLoop g (dijkstraFuel g) (dijkstraInit s)).visited ⊆
      g.nodeList := by
    intro v hv
    rcases hvis v hv with h | h
    · exact h ▸ hs
    · exact h
  have hlen : (dijkstraLoop g (dijkstraFuel g) (dijkstraInit s)).visited.length
      ≤ g.nodeList.length := nodup_subset_length_le hnd hsub
  have hsome := walkBack_isSome hnd hprev (g.nodeList.length + 3) t []
    (by omega)
  obtain ⟨l, hl⟩ := Option.isSome_iff_exists.1 hsome
  refine ⟨l, hl, ?_⟩
  intro hlast fuel hfuel
  have hl' : walkBack (dijkstra g s).2 fuel (some t) [] = some l :=
    walkBack_mono _ _ _ _ _ _ hfuel hl
  rw [reconstruct_path, hl']
  simp only [List.head?_reverse]
  rw [if_neg hlast]

/-- Witness for C6 on the disconnected graph: node `2` is unreachable from
`0`, the backward walk from it is just `[2]`, and reconstruction yields the
empty path. -/
theorem reconstruct_path_unreachable_witness :
    reconstruct_path (dijkstra demoDisc 0).2 0 2 (demoDisc.nodeList.length + 3)
      = some [] := by
  obtain ⟨l, hl, himp⟩ := reconstruct_path_unreachable demoDisc 0 2
    (by decide) (by decide)
  have hval : walkBack (dijkstra demoDisc 0).2 (demoDisc.nodeList.length + 3)
      (some 2) [] = some [2] := by with_unfolding_all rfl
  rw [hval] at hl
  have hleq : [2] = l := by injection hl
  refine himp ?_ _ le_rfl
  rw [← hleq]
  decide

/-- Every resolved edge weight is nonnegative when the per-edge weights
are. -/
theorem edgeWeight_nonneg {g : Graph} (hnn : NonnegWeights g) (a b : Node) :
    0 ≤ g.edgeWeight a b := by
  rcases hfind : g.edges.find? (fun e =>
      (e.ep1 == a && e.ep2 == b) || (e.ep1 == b && e.ep2 == a)) with _ | e
  · rw [Graph.edgeWeight, hfind]
    show (0 : ℚ) ≤ 1
    norm_num
  · rw [Graph.edgeWeight, hfind]
    show (0 : ℚ) ≤ e.weight.getD 1
    exact hnn e (List.mem_of_find?_eq_some hfind)

/-- Walk weights are nonnegative when edge weights are. -/
theorem WalkW_nonneg {g : Graph} {s : Node} (hnn : ∀ a b, 0 ≤ g.edgeWeight a b) :
    ∀ {v : Node} {c : ℚ}, WalkW g s v c → 0 ≤ c := by
  intro v c hw
  induction hw with
  | nil => exact le_refl 0
  | cons hw' hedge ih => exact add_nonneg ih (hnn _ _)

/-- Appending one more edge to a nonempty node sequence adds that edge's
weight. -/
theorem walkWeight_concat {g : Graph} :
    ∀ {p : List Node} {u v : Node}, p.getLast? = some u →
      walkWeight g (p ++ [v]) = walkWeight g p + g.edgeWeight u v := by
  intro p
  induction p with
  | nil => intro u v h; simp at h
  | cons a q ih =>
    intro u v h
    rcases q with _ | ⟨b, r⟩
    · simp only [List.getLast?_singleton, Option.some.injEq] at h
      subst h
      show g.edgeWeight a v + walkWeight g [v] = walkWeight g [a] + g.edgeWeight a v
      show g.edgeWeight a v + 0 = 0 + g.edgeWeight a v
      ring
    · have hlast : (b :: r).getLast? = some u := by
        rw [List.getLast?_cons_cons] at h
        exact h
      show g.edgeWeight a b + walkWeight g ((b :: r) ++ [v])
        = walkWeight g (a :: b :: r) + g.edgeWeight u v
      rw [ih hlast]
      show g.edgeWeight a b + (walkWeight g (b :: r) + g.edgeWeight u v)
        = g.edgeWeight a b + walkWeight g (b :: r) + g.edgeWeight u v
      ring

/-- Extending a walk by one edge at the far end. -/
theorem IsWalkFrom_concat {g : Graph} {s u v : Node} {p : List Node}
    (hp : IsWalkFrom g s u p) (he : g.isEdge u v) :
    IsWalkFrom g s v (p ++ [v]) := by
  obtain ⟨hhead, hlast, hchain⟩ := hp
  refine ⟨?_, List.getLast?_concat _, ?_⟩
  · rw [List.head?_append]
    cases hh : p.head?
    · rw [hh] at hhead; cases hhead
    · rw [hh] at hhead; rw [hhead]; rfl
  · refine List.chain'_append.2 ⟨hchain, List.chain'_singleton _, ?_⟩
    intro x hx y hy
    rw [hlast] at hx
    simp only [Option.mem_def, Option.some.injEq] at hx
    simp only [List.head?_cons, Option.mem_def, Option.some.injEq] at hy
    subst hx; subst hy
    exact he

/-- Splitting a walk at its final edge. -/
theorem IsWalkFrom_concat_inv {g : Graph} {s t v : Node} {p : List Node}
    (hne : p ≠ []) (hw : IsWalkFrom g s t (p ++ [v])) :
    t = v ∧ ∃ u, p.getLast? = some u ∧ g.isEdge u v ∧ IsWalkFrom g s u p := by
  obtain ⟨hhead, hlast, hchain⟩ := hw
  rw [List.getLast?_concat] at hlast
  have ht : t = v := by injection hlast with h; exact h.symm
  obtain ⟨hcp, -, hlink⟩ := List.chain'_append.1 hchain
  rcases hu : p.getLast? with _ | u
  · rcases p with _ | ⟨a, q⟩
    · exact absurd rfl hne
    · rw [List.getLast?_eq_getLast _ (by simp)] at hu
      cases hu
  · refine ⟨ht, u, rfl, ?_, ?_, hu, hcp⟩
    · exact hlink u (by rw [hu]; rfl) v (by rfl)
    · rw [List.head?_append] at hhead
      rcases hh : p.head? with _ | x
      · rcases p with _ | ⟨a, q⟩
        · exact absurd rfl hne
        · cases hh
      · rw [hh] at hhead
        simpa using hhead

/-- A concrete walk yields the inductive walk relation at its weight. -/
theorem WalkW_of_IsWalkFrom {g : Graph} {s : Node} :
    ∀ {p : List Node} {t : Node}, IsWalkFrom g s t p →
      WalkW g s t (walkWeight g p) := by
  intro p
  induction p using List.reverseRecOn with
  | nil => intro t h; obtain ⟨h1, -, -⟩ := h; cases h1
  | append_singleton q v ih =>
    intro t h
    rcases q with _ | ⟨a, r⟩
    · obtain ⟨h1, h2, -⟩ := h
      simp only [List.nil_append, List.head?_cons, Option.some.injEq] at h1
      simp only [List.nil_append, List.getLast?_singleton, Option.some.injEq] at h2
      subst h1; subst h2
      exact WalkW.nil
    · obtain ⟨ht, u, hu, hedge, hwalk⟩ := IsWalkFrom_concat_inv (by simp) h
      subst ht
      rw [walkWeight_concat hu]
      exact WalkW.cons (ih hwalk) hedge

/-- The inductive walk relation yields a concrete nonempty walk of the same
weight. -/
theorem IsWalkFrom_of_WalkW {g : Graph} {s : Node} {t : Node} {c : ℚ}
    (hw : WalkW g s t c) :
    ∃ p, IsWalkFrom g s t p ∧ walkWeight g p = c ∧ p ≠ [] := by
  induction hw with
  | nil => exact ⟨[s], ⟨rfl, rfl, List.chain'_singleton _⟩, rfl, by simp⟩
  | cons hw' hedge ih =>
    obtain ⟨p, hp, hc, hne⟩ := ih
    refine ⟨p ++ [_], IsWalkFrom_concat hp hedge, ?_, by simp⟩
    rw [walkWeight_concat hp.2.1, hc]

/-- The pairwise heap minimum has a key below both keys. -/
theorem lexMin_fst_le (a b : ℚ × Node) :
    (lexMin a b).1 ≤ a.1 ∧ (lexMin a b).1 ≤ b.1 := by
  unfold lexMin
  split_ifs with h1 h2 h3
  · exact ⟨le_refl _, le_of_lt h1⟩
  · exact ⟨le_of_lt h2, le_refl _⟩
  · exact ⟨le_refl _, le_of_not_lt h2⟩
  · exact ⟨le_of_not_lt h1, le_refl _⟩

/-- The folded heap minimum has a key below the seed's and all members'. -/
theorem foldl_lexMin_le : ∀ (xs : List (ℚ × Node)) (a : ℚ × Node),
    (xs.foldl lexMin a).1 ≤ a.1 ∧ ∀ pr ∈ xs, (xs.foldl lexMin a).1 ≤ pr.1 := by
  intro xs
  induction xs with
  | nil => intro a; exact ⟨le_refl _, fun pr hpr => absurd hpr (List.not_mem_nil _)⟩
  | cons b xs ih =>
    intro a
    simp only [List.foldl_cons]
    obtain ⟨h1, h2⟩ := ih (lexMin a b)
    refine ⟨h1.trans (lexMin_fst_le a b).1, ?_⟩
    intro pr hpr
    rcases List.mem_cons.1 hpr with hpr' | hpr'
    · exact hpr' ▸ (h1.trans (lexMin_fst_le a b).2)
    · exact h2 pr hpr'

/-- The popped entry's key is minimal among all queue keys. -/
theorem popMin_min {pq : List (ℚ × Node)} {m : ℚ × Node} {rest : List (ℚ × Node)}
    (h : popMin pq = some (m, rest)) : ∀ pr ∈ pq, m.1 ≤ pr.1 := by
  rcases pq with _ | ⟨x, xs⟩
  · simp [popMin] at h
  · simp only [popMin, Option.some.injEq, Prod.mk.injEq] at h
    obtain ⟨hm, -⟩ := h
    intro pr hpr
    obtain ⟨h1, h2⟩ := foldl_lexMin_le xs x
    rcases List.mem_cons.1 hpr with hpr' | hpr'
    · exact hm ▸ hpr' ▸ h1
    · exact hm ▸ h2 pr hpr'

/-- The heart of Dijkstra's argument: when every queue key is at least `d`,
every walk to an unfinalized node weighs at least `d`.  Uses nonnegative
weights, the optimality of finalized distances, the frontier bound, and
queue completeness. -/
theorem dijkstra_pop_opt {g : Graph} {s : Node}
    (hnn : ∀ a b, 0 ≤ g.edgeWeight a b) {st : DState}
    (hA1 : ∀ u ∈ st.visited, ∃ c : ℚ, st.dist u = some c ∧ WalkW g s u c ∧
      ∀ c', WalkW g s u c' → c ≤ c')
    (hfront : DInvFrontier g st)
    (hA5 : ∀ v, v ∉ st.visited → st.dist v ≠ ⊤ →
      ∃ dv : ℚ, st.dist v = some dv ∧ (dv, v) ∈ st.pq)
    (hA6 : st.dist s = some 0)
    {d : ℚ} (hmin : ∀ pr ∈ st.pq, d ≤ pr.1) :
    ∀ {v : Node} {c : ℚ}, WalkW g s v c → v ∉ st.visited → d ≤ c := by
  intro v c hw
  induction hw with
  | nil =>
    intro hv
    obtain ⟨dv, hdv, hmem⟩ := hA5 s hv (by rw [hA6]; exact WithTop.coe_ne_top)
    rw [hA6] at hdv
    injection hdv with h0
    subst h0
    exact hmin (0, s) hmem
  | cons hw' hedge ih =>
    rename_i u vv cc
    intro hv
    by_cases hu : u ∈ st.visited
    · obtain ⟨cu, hcu, -, hopt⟩ := hA1 u hu
      have hle : st.dist vv ≤ ((cc + g.edgeWeight u vv : ℚ) : WithTop ℚ) := by
        have h1 : st.dist vv ≤ st.dist u + (g.edgeWeight u vv : WithTop ℚ) :=
          hfront u hu vv hedge hv
        have h2 : st.dist u + (g.edgeWeight u vv : WithTop ℚ)
            = ((cu + g.edgeWeight u vv : ℚ) : WithTop ℚ) := by
          rw [hcu]
          exact_mod_cast rfl
        have h3 : ((cu + g.edgeWeight u vv : ℚ) : WithTop ℚ)
            ≤ ((cc + g.edgeWeight u vv : ℚ) : WithTop ℚ) := by
          rw [WithTop.coe_le_coe]
          have := hopt cc hw'
          linarith
        exact (h1.trans_eq h2).trans h3
      have hne : st.dist vv ≠ ⊤ := ne_top_of_le_ne_top WithTop.coe_ne_top hle
      obtain ⟨dv, hdv, hmem⟩ := hA5 vv hv hne
      have h1 : d ≤ dv := hmin (dv, vv) hmem
      have h2 : dv ≤ cc + g.edgeWeight u vv := by
        rw [hdv] at hle
        exact WithTop.coe_le_coe.1 hle
      linarith
    · have hd1 := ih hu
      have hw0 := hnn u vv
      linarith

/-- One relaxation step preserves the core invariant, only lowers tentative
distances, freezes finalized distances, and bounds the relaxed neighbor's
resulting distance by the candidate value. -/
theorem relax_core {g : Graph} {s : Node} {st : DState} {current : Node} {d : ℚ}
    (hnn : ∀ a b, 0 ≤ g.edgeWeight a b)
    (hbase : DInvBase g s st)
    (hcore : DInvCore g s st)
    (hc : current ∈ st.visited)
    (hd : st.dist current = some d)
    (hW : WalkW g s current d)
    {n : Node} (hedge : g.isEdge current n) :
    DInvCore g s (relax g current d st n) ∧
    (∀ x, (relax g current d st n).dist x ≤ st.dist x) ∧
    (∀ x ∈ st.visited, (relax g current d st n).dist x = st.dist x) ∧
    (n ∉ st.visited →
      (relax g current d st n).dist n ≤ some (d + g.edgeWeight current n)) := by
  obtain ⟨hA1, hA3, hA4, hA5, hA6, hA7, hA8, hA9, hA10, hA11⟩ := hcore
  simp only [relax]
  by_cases hv : n ∈ st.visited
  · rw [if_pos hv]
    exact ⟨⟨hA1, hA3, hA4, hA5, hA6, hA7, hA8, hA9, hA10, hA11⟩,
      fun x => le_refl _, fun x _ => rfl, fun hn => absurd hv hn⟩
  · rw [if_neg hv]
    have hcn : current ≠ n := fun h => hv (h ▸ hc)
    by_cases hlt : ((d + g.edgeWeight current n : ℚ) : WithTop ℚ) < st.dist n
    · rw [if_pos hlt]
      dsimp only
      have hns : n ≠ s := by
        intro hns
        rw [hns, hA6] at hlt
        have hlt' : ((d + g.edgeWeight current s : ℚ) : WithTop ℚ) <
            ((0 : ℚ) : WithTop ℚ) := hlt
        have h1 : d + g.edgeWeight current s < 0 := WithTop.coe_lt_coe.1 hlt'
        have h2 := hnn current s
        have h3 := WalkW_nonneg hnn hW
        linarith
      have hdn : ∀ x, Function.update st.dist n
          ((d + g.edgeWeight current n : ℚ) : WithTop ℚ) x ≤ st.dist x := by
        intro x
        by_cases hx : x = n
        · subst hx
          rw [Function.update_same]
          exact le_of_lt hlt
        · exact le_of_eq (Function.update_noteq hx _ _)
      refine ⟨⟨?_, ?_, ?_, ?_, ?_, ?_, ?_, ?_, ?_, ?_⟩, hdn, ?_, ?_⟩
      · dsimp only
        intro u hu
        obtain ⟨c, hcu, hwu, hopt⟩ := hA1 u hu
        refine ⟨c, ?_, hwu, hopt⟩
        have hun : u ≠ n := fun h => hv (h ▸ hu)
        rw [Function.update_noteq hun]
        exact hcu
      · dsimp only
        intro pr hpr
        rcases List.mem_cons.1 hpr with hpr' | hpr'
        · subst hpr'
          exact WalkW.cons hW hedge
        · exact hA3 pr hpr'
      · dsimp only
        intro pr hpr
        rcases List.mem_cons.1 hpr with hpr' | hpr'
        · subst hpr'
          rw [Function.update_same]
          exact le_refl _
        · exact (hdn pr.2).trans (hA4 pr hpr')
      · dsimp only
        intro x hx hne
        by_cases hxn : x = n
        · subst hxn
          exact ⟨d + g.edgeWeight current x, Function.update_same _ _ _,
            List.mem_cons_self _ _⟩
        · rw [Function.update_noteq hxn] at hne ⊢
          obtain ⟨dx, hdx, hmemx⟩ := hA5 x hx hne
          exact ⟨dx, hdx, List.mem_cons_of_mem _ hmemx⟩
      · dsimp only
        have hsn : s ≠ n := fun h => hns h.symm
        rw [Function.update_noteq hsn]
        exact hA6
      · dsimp only
        rcases hA7 with h | h
        · exact Or.inl h
        · exact Or.inr (List.mem_cons_of_mem _ h)
      · dsimp only
        intro v u hvu
        by_cases hvn : v = n
        · subst hvn
          rw [Function.update_same] at hvu
          injection hvu with hu'
          subst hu'
          refine ⟨hedge, ?_⟩
          rw [Function.update_same, Function.update_noteq hcn, hd]
          exact_mod_cast rfl
        · rw [Function.update_noteq hvn] at hvu
          obtain ⟨he', heq⟩ := hA8 v u hvu
          have hun : u ≠ n := by
            intro h
            exact hv (h ▸ (hbase.2.2.2 v u hvu).1)
          refine ⟨he', ?_⟩
          rw [Function.update_noteq hvn, Function.update_noteq hun]
          exact heq
      · dsimp only
        intro pr hpr
        rcases List.mem_cons.1 hpr with hpr' | hpr'
        · subst hpr'
          refine Or.inr ?_
          rw [Function.update_same]
          exact Option.some_ne_none _
        · rcases hA9 pr hpr' with h | h
          · exact Or.inl h
          · refine Or.inr ?_
            by_cases hpn : pr.2 = n
            · rw [hpn, Function.update_same]
              exact Option.some_ne_none _
            · rw [Function.update_noteq hpn]
              exact h
      · dsimp only
        intro v hvmem hvs
        have hvn : v ≠ n := fun h => hv (h ▸ hvmem)
        rw [Function.update_noteq hvn]
        exact hA10 v hvmem hvs
      · dsimp only
        have hsn : s ≠ n := fun h => hns h.symm
        rw [Function.update_noteq hsn]
        exact hA11
      · dsimp only
        intro x hx
        have hxn : x ≠ n := fun h => hv (h ▸ hx)
        rw [Function.update_noteq hxn]
      · dsimp only
        intro _
        rw [Function.update_same]
        exact le_refl _
    · rw [if_neg hlt]
      refine ⟨⟨hA1, hA3, hA4, hA5, hA6, hA7, hA8, hA9, hA10, hA11⟩,
        fun x => le_refl _, fun x _ => rfl, fun _ => not_lt.1 hlt⟩

/-- The relaxation fold over a neighbor list preserves the core invariant,
only lowers tentative distances, freezes finalized distances, and bounds
every unfinalized neighbor's distance by the candidate through `current`. -/
theorem relaxFold_core {g : Graph} {s : Node} (current : Node) (d : ℚ)
    (hnn : ∀ a b, 0 ≤ g.edgeWeight a b)
    (hW : WalkW g s current d) :
    ∀ (l : List Node) (st : DState),
      (∀ n ∈ l, g.isEdge current n) →
      (∀ n ∈ l, n ∈ g.nodeList) →
      DInvBase g s st → DInvCore g s st →
      current ∈ st.visited → st.dist current = some d →
      DInvCore g s (List.foldl (relax g current d) st l) ∧
      (∀ x, (List.foldl (relax g current d) st l).dist x ≤ st.dist x) ∧
      (∀ x ∈ st.visited,
        (List.foldl (relax g current d) st l).dist x = st.dist x) ∧
      (∀ n ∈ l, n ∉ st.visited →
        (List.foldl (relax g current d) st l).dist n ≤
          some (d + g.edgeWeight current n)) := by
  intro l
  induction l with
  | nil =>
    intro st _ _ _ hcore _ _
    exact ⟨hcore, fun x => le_refl _, fun x _ => rfl, fun n hn => absurd hn (by simp)⟩
  | cons m l ih =>
    intro st hedges hnodes hbase hcore hc hd
    simp only [List.foldl_cons]
    have hedgem : g.isEdge current m := hedges m (List.mem_cons_self _ _)
    obtain ⟨hcore', hmono', hfroz', hbound'⟩ :=
      relax_core hnn hbase hcore hc hd hW hedgem
    have hbase' : DInvBase g s (relax g current d st m) :=
      relax_base current d hc hbase m (hnodes m (List.mem_cons_self _ _))
    have hvis' : (relax g current d st m).visited = st.visited := relax_visited g current d st m
    have hc' : current ∈ (relax g current d st m).visited := by rw [hvis']; exact hc
    have hd' : (relax g current d st m).dist current = some d := by
      rw [hfroz' current hc]; exact hd
    obtain ⟨ihcore, ihmono, ihfroz, ihbound⟩ :=
      ih (relax g current d st m)
        (fun n hn => hedges n (List.mem_cons_of_mem _ hn))
        (fun n hn => hnodes n (List.mem_cons_of_mem _ hn))
        hbase' hcore' hc' hd'
    refine ⟨ihcore, ?_, ?_, ?_⟩
    · exact fun x => (ihmono x).trans (hmono' x)
    · intro x hx
      rw [ihfroz x (by rw [hvis']; exact hx), hfroz' x hx]
    · intro n hn hnv
      rcases List.mem_cons.1 hn with hn' | hn'
      · subst hn'
        exact (ihmono n).trans (hbound' hnv)
      · exact ihbound n hn' (by rw [hvis']; exact hnv)

/-- The relaxation fold never changes the visited list. -/
theorem relaxFold_visited (g : Graph) (c : Node) (d : ℚ) :
    ∀ (l : List Node) (st : DState),
      (List.foldl (relax g c d) st l).visited = st.visited := by
  intro l
  induction l with
  | nil => intro st; rfl
  | cons n l ih =>
    intro st
    simp only [List.foldl_cons]
    rw [ih, relax_visited]

/-- The Dijkstra loop preserves the core invariant and the frontier bound
under nonnegative weights. -/
theorem dijkstraLoop_core {g : Graph} {s : Node}
    (hnn : ∀ a b, 0 ≤ g.edgeWeight a b) :
    ∀ (fuel : ℕ) (st : DState),
      DInvBase g s st → DInvCore g s st → DInvFrontier g st →
      DInvCore g s (dijkstraLoop g fuel st) ∧
      DInvFrontier g (dijkstraLoop g fuel st) := by
  intro fuel
  induction fuel with
  | zero => intro st _ hcore hfront; exact ⟨hcore, hfront⟩
  | succ fuel ih =>
    intro st hbase hcore hfront
    obtain ⟨hA1, hA3, hA4, hA5, hA6, hA7, hA8, hA9, hA10, hA11⟩ := hcore
    rcases hpop : popMin st.pq with _ | ⟨⟨d, current⟩, rest⟩
    · rw [dijkstraLoop, hpop]
      exact ⟨⟨hA1, hA3, hA4, hA5, hA6, hA7, hA8, hA9, hA10, hA11⟩, hfront⟩
    · rw [dijkstraLoop, hpop]
      dsimp only
      obtain ⟨hmem0, hrest0⟩ := popMin_spec hpop
      have hmem : (d, current) ∈ st.pq := hmem0
      have hrest : rest = st.pq.erase (d, current) := hrest0
      have hmin : ∀ pr ∈ st.pq, d ≤ pr.1 := popMin_min hpop
      have hsub : ∀ pr ∈ rest, pr ∈ st.pq := by
        intro pr hpr
        rw [hrest] at hpr
        exact List.erase_subset _ _ hpr
      obtain ⟨h1, h2, h3, h4⟩ := hbase
      by_cases hv : current ∈ st.visited
      · rw [if_pos hv]
        have hbase' : DInvBase g s { st with pq := rest } :=
          ⟨h1, h2, fun pr hpr => h3 pr (hsub pr hpr), h4⟩
        have hcore' : DInvCore g s { st with pq := rest } := by
          refine ⟨hA1, fun pr hpr => hA3 pr (hsub pr hpr),
            fun pr hpr => hA4 pr (hsub pr hpr), ?_, hA6, ?_, hA8,
            fun pr hpr => hA9 pr (hsub pr hpr), hA10, hA11⟩
          · intro v hv' hne
            obtain ⟨dv, hdv, hmemv⟩ := hA5 v hv' hne
            refine ⟨dv, hdv, ?_⟩
            show (dv, v) ∈ rest
            rw [hrest]
            have hne2 : (dv, v) ≠ (d, current) := by
              intro heq
              have h2' : v = current := congrArg Prod.snd heq
              exact hv' (h2' ▸ hv)
            exact (List.mem_erase_of_ne hne2).2 hmemv
          · rcases hA7 with h | h
            · exact Or.inl h
            · by_cases hsc : s ∈ st.visited
              · exact Or.inl hsc
              · refine Or.inr ?_
                show ((0 : ℚ), s) ∈ rest
                rw [hrest]
                have hne2 : ((0 : ℚ), s) ≠ (d, current) := by
                  intro heq
                  have h2' : s = current := congrArg Prod.snd heq
                  exact hsc (h2' ▸ hv)
                exact (List.mem_erase_of_ne hne2).2 h
        exact ih _ hbase' hcore' hfront
      · rw [if_neg hv]
        have hdcur : st.dist current = some d := by
          have hle : st.dist current ≤ some d := hA4 (d, current) hmem
          rcases lt_or_eq_of_le hle with hlt | heq
          · exfalso
            have hne : st.dist current ≠ ⊤ :=
              ne_top_of_le_ne_top WithTop.coe_ne_top hle
            obtain ⟨dc, hdc, hmemc⟩ := hA5 current hv hne
            have hled : d ≤ dc := hmin (dc, current) hmemc
            rw [hdc] at hlt
            have hlt' : ((dc : ℚ) : WithTop ℚ) < ((d : ℚ) : WithTop ℚ) := hlt
            have h2' : dc < d := WithTop.coe_lt_coe.1 hlt'
            linarith
          · exact heq
        have hnstale : ¬ (st.dist current < (d : WithTop ℚ)) := by
          rw [hdcur]
          exact fun h => lt_irrefl _ h
        rw [if_neg hnstale]
        have hWcur : WalkW g s current d := hA3 (d, current) hmem
        have hopt : ∀ c', WalkW g s current c' → d ≤ c' :=
          fun c' hw' => dijkstra_pop_opt hnn hA1 hfront hA5 hA6 hmin hw' hv
        have hcur : current = s ∨ current ∈ g.nodeList := h3 (d, current) hmem
        have hst1base : DInvBase g s
            ⟨st.dist, st.prev, rest, current :: st.visited⟩ := by
          refine ⟨List.nodup_cons.2 ⟨hv, h1⟩, ?_,
            fun pr hpr => h3 pr (hsub pr hpr), ?_⟩
          · intro v hvmem
            rcases List.mem_cons.1 hvmem with hvmem' | hvmem'
            · exact hvmem' ▸ hcur
            · exact h2 v hvmem'
          · intro v u hvu
            obtain ⟨hu, hvo⟩ := h4 v u hvu
            refine ⟨List.mem_cons_of_mem _ hu, ?_⟩
            intro hvmem
            rcases List.mem_cons.1 hvmem with hvmem' | hvmem'
            · subst hvmem'
              exact ⟨[], st.visited, rfl, hu⟩
            · obtain ⟨l₁, l₂, hsplit, hul⟩ := hvo hvmem'
              exact ⟨current :: l₁, l₂, by rw [hsplit]; rfl, hul⟩
        have hst1core : DInvCore g s
            ⟨st.dist, st.prev, rest, current :: st.visited⟩ := by
          refine ⟨?_, fun pr hpr => hA3 pr (hsub pr hpr),
            fun pr hpr => hA4 pr (hsub pr hpr), ?_, hA6, ?_, hA8,
            fun pr hpr => hA9 pr (hsub pr hpr), ?_, hA11⟩
          · intro u hu
            rcases List.mem_cons.1 hu with hu' | hu'
            · subst hu'
              exact ⟨d, hdcur, hWcur, hopt⟩
            · exact hA1 u hu'
          · intro v hv' hne
            have hvc : v ≠ current := fun h => hv' (h ▸ List.mem_cons_self _ _)
            have hv2 : v ∉ st.visited := fun h => hv' (List.mem_cons_of_mem _ h)
            obtain ⟨dv, hdv, hmemv⟩ := hA5 v hv2 hne
            refine ⟨dv, hdv, ?_⟩
            show (dv, v) ∈ rest
            rw [hrest]
            have hne2 : (dv, v) ≠ (d, current) := by
              intro heq
              exact hvc (congrArg Prod.snd heq)
            exact (List.mem_erase_of_ne hne2).2 hmemv
          · rcases hA7 with h | h
            · exact Or.inl (List.mem_cons_of_mem _ h)
            · by_cases hsc : s = current
              · exact Or.inl (hsc ▸ List.mem_cons_self _ _)
              · refine Or.inr ?_
                show ((0 : ℚ), s) ∈ rest
                rw [hrest]
                have hne2 : ((0 : ℚ), s) ≠ (d, current) := by
                  intro heq
                  exact hsc (congrArg Prod.snd heq)
                exact (List.mem_erase_of_ne hne2).2 h
          · intro v hvmem hvs
            rcases List.mem_cons.1 hvmem with hvmem' | hvmem'
            · subst hvmem'
              rcases hA9 (d, v) hmem with h | h
              · exact absurd h hvs
              · exact h
            · exact hA10 v hvmem' hvs
        obtain ⟨hcore2, hmono2, hfroz2, hbound2⟩ :=
          relaxFold_core current d hnn hWcur (g.adj current)
            ⟨st.dist, st.prev, rest, current :: st.visited⟩
            (fun n hn => hn)
            (fun n hn => g.adj_subset_nodeList current hn)
            hst1base hst1core (List.mem_cons_self _ _) hdcur
        have hbase2 := relaxFold_base current d (g.adj current)
          ⟨st.dist, st.prev, rest, current :: st.visited⟩
          (List.mem_cons_self _ _) hst1base
          (fun n hn => g.adj_subset_nodeList current hn)
        have hfront2 : DInvFrontier g
            (List.foldl (relax g current d)
              ⟨st.dist, st.prev, rest, current :: st.visited⟩
              (g.adj current)) := by
          intro u hu v hedge hvnot
          rw [relaxFold_visited] at hu hvnot
          have hvnot1 : v ∉ current :: st.visited := hvnot
          have hv2 : v ∉ st.visited := fun h => hvnot1 (List.mem_cons_of_mem _ h)
          rcases List.mem_cons.1 hu with hu' | hu'
          · subst hu'
            have hvadj : v ∈ g.adj u := hedge
            have hb := hbound2 v hvadj hvnot1
            refine hb.trans (le_of_eq ?_)
            rw [hfroz2 u (List.mem_cons_self _ _)]
            show some (d + g.edgeWeight u v) = st.dist u + _
            rw [hdcur]
            exact_mod_cast rfl
          · have hfz : ∀ x ∈ st.visited,
                (List.foldl (relax g current d)
                  ⟨st.dist, st.prev, rest, current :: st.visited⟩
                  (g.adj current)).dist x = st.dist x :=
              fun x hx => hfroz2 x (List.mem_cons_of_mem _ hx)
            have hch := (hmono2 v).trans (hfront u hu' v hedge hv2)
            refine hch.trans (le_of_eq ?_)
            rw [hfz u hu']
        exact ih _ hbase2 hcore2 hfront2

/-- `popMin` returns `none` only on the empty queue. -/
theorem popMin_eq_none {pq : List (ℚ × Node)} (h : popMin pq = none) : pq = [] := by
  rcases pq with _ | ⟨x, xs⟩
  · rfl
  · simp [popMin] at h

/-- A single relaxation pushes at most one queue entry. -/
theorem relax_pq_le (g : Graph) (c : Node) (d : ℚ) (st : DState) (n : Node) :
    (relax g c d st n).pq.length ≤ st.pq.length + 1 := by
  simp only [relax]
  split_ifs
  · exact Nat.le_succ _
  · exact le_refl _
  · exact Nat.le_succ _

/-- The relaxation fold pushes at most one queue entry per neighbor. -/
theorem relaxFold_pq_le (g : Graph) (c : Node) (d : ℚ) :
    ∀ (l : List Node) (st : DState),
      (List.foldl (relax g c d) st l).pq.length ≤ st.pq.length + l.length := by
  intro l
  induction l with
  | nil => intro st; exact le_refl _
  | cons n l ih =>
    intro st
    simp only [List.foldl_cons, List.length_cons]
    calc (List.foldl (relax g c d) (relax g c d st n) l).pq.length
        ≤ (relax g c d st n).pq.length + l.length := ih _
      _ ≤ st.pq.length + 1 + l.length := Nat.add_le_add_right (relax_pq_le g c d st n) _
      _ = st.pq.length + (l.length + 1) := by omega

/-- A node with a nonempty adjacency list is itself a graph node. -/
theorem adj_mem_nodeList_left {g : Graph} {u v : Node} (h : v ∈ g.adj u) :
    u ∈ g.nodeList := by
  simp only [Graph.adj, List.mem_filterMap] at h
  obtain ⟨e, he, heq⟩ := h
  simp only [Graph.nodeList, List.mem_dedup, List.mem_flatMap]
  by_cases h1 : e.ep1 = u
  · exact ⟨e, he, by rw [← h1]; exact List.mem_cons_self _ _⟩
  · rw [if_neg h1] at heq
    by_cases h2 : e.ep2 = u
    · exact ⟨e, he, by rw [← h2]; simp⟩
    · rw [if_neg h2] at heq
      exact absurd heq (by simp)

/-- Weakening the filter only lowers the filtered mapped sum. -/
theorem filter_map_sum_mono (f : Node → ℕ) :
    ∀ (l : List Node) (p q : Node → Bool), (∀ x, q x = true → p x = true) →
      ((l.filter q).map f).sum ≤ ((l.filter p).map f).sum := by
  intro l p q hpq
  induction l with
  | nil => exact le_refl _
  | cons a l ih =>
    by_cases hq : q a = true
    · rw [List.filter_cons_of_pos hq, List.filter_cons_of_pos (hpq a hq)]
      simp only [List.map_cons, List.sum_cons]
      exact Nat.add_le_add_left ih _
    · rw [List.filter_cons_of_neg (by simpa using hq)]
      by_cases hp : p a = true
      · rw [List.filter_cons_of_pos hp]
        simp only [List.map_cons, List.sum_cons]
        exact ih.trans (Nat.le_add_left _ _)
      · rw [List.filter_cons_of_neg (by simpa using hp)]
        exact ih

/-- Dropping an element that the stronger filter excludes but the weaker
keeps costs the sum at least that element's value. -/
theorem filter_map_sum_drop (f : Node → ℕ) :
    ∀ (l : List Node) (p q : Node → Bool), (∀ x, q x = true → p x = true) →
      ∀ current ∈ l, p current = true → q current = false →
      f current + ((l.filter q).map f).sum ≤ ((l.filter p).map f).sum := by
  intro l p q hpq
  induction l with
  | nil => intro current hc; exact absurd hc (List.not_mem_nil _)
  | cons a l ih =>
    intro current hc hp hq
    rcases List.mem_cons.1 hc with hc' | hc'
    · subst hc'
      rw [List.filter_cons_of_pos hp, List.filter_cons_of_neg (by simp [hq])]
      simp only [List.map_cons, List.sum_cons]
      exact Nat.add_le_add_left (filter_map_sum_mono f l p q hpq) _
    · by_cases hqa : q a = true
      · rw [List.filter_cons_of_pos hqa, List.filter_cons_of_pos (hpq a hqa)]
        simp only [List.map_cons, List.sum_cons]
        have := ih current hc' hp hq
        omega
      · rw [List.filter_cons_of_neg (by simpa using hqa)]
        by_cases hpa : p a = true
        · rw [List.filter_cons_of_pos hpa]
          simp only [List.map_cons, List.sum_cons]
          have := ih current hc' hp hq
          omega
        · rw [List.filter_cons_of_neg (by simpa using hpa)]
          exact ih current hc' hp hq

/-- With fuel exceeding the termination potential, the Dijkstra loop drains
its queue completely. -/
theorem dijkstraLoop_pq_nil {g : Graph} :
    ∀ (fuel : ℕ) (st : DState), dPotential g st < fuel →
      (dijkstraLoop g fuel st).pq = [] := by
  intro fuel
  induction fuel with
  | zero => intro st h; exact absurd h (Nat.not_lt_zero _)
  | succ fuel ih =>
    intro st hpot
    rcases hpop : popMin st.pq with _ | ⟨⟨d, current⟩, rest⟩
    · rw [dijkstraLoop, hpop]
      exact popMin_eq_none hpop
    · rw [dijkstraLoop, hpop]
      dsimp only
      obtain ⟨hmem0, hrest0⟩ := popMin_spec hpop
      have hmem : (d, current) ∈ st.pq := hmem0
      have hrest : rest = st.pq.erase (d, current) := hrest0
      have hlen : rest.length + 1 = st.pq.length := by
        rw [hrest]
        have h1 := List.length_erase_of_mem hmem
        have hpos : 0 < st.pq.length := List.length_pos.2 (List.ne_nil_of_mem hmem)
        omega
      by_cases hv : current ∈ st.visited
      · rw [if_pos hv]
        apply ih
        simp only [dPotential] at hpot ⊢
        dsimp only
        omega
      · rw [if_neg hv]
        have hmono := filter_map_sum_mono (fun u => (g.adj u).length) g.nodeList
          (fun u => decide (u ∉ st.visited))
          (fun u => decide (u ∉ current :: st.visited))
          (by
            intro x hx
            simp only [decide_eq_true_eq] at hx ⊢
            exact fun h => hx (List.mem_cons_of_mem _ h))
        by_cases hstale : st.dist current < (d : WithTop ℚ)
        · rw [if_pos hstale]
          apply ih
          simp only [dPotential] at hpot ⊢
          dsimp only
          omega
        · rw [if_neg hstale]
          apply ih
          have hpq2 := relaxFold_pq_le g current d (g.adj current)
            ⟨st.dist, st.prev, rest, current :: st.visited⟩
          have hvis2 := relaxFold_visited g current d (g.adj current)
            ⟨st.dist, st.prev, rest, current :: st.visited⟩
          by_cases hmemn : current ∈ g.nodeList
          · have hdrop := filter_map_sum_drop (fun u => (g.adj u).length) g.nodeList
              (fun u => decide (u ∉ st.visited))
              (fun u => decide (u ∉ current :: st.visited))
              (by
                intro x hx
                simp only [decide_eq_true_eq] at hx ⊢
                exact fun h => hx (List.mem_cons_of_mem _ h))
              current hmemn
              (by simp only [decide_eq_true_eq]; exact hv)
              (by simp)
            dsimp only at hpq2 hdrop
            simp only [dPotential] at hpot ⊢
            rw [hvis2]
            dsimp only
            omega
          · have hadj : g.adj current = [] := by
              rcases hn : g.adj current with _ | ⟨x, xs⟩
              · rfl
              · exact absurd (adj_mem_nodeList_left
                  (hn ▸ List.mem_cons_self x xs)) hmemn
            have hadjlen : (g.adj current).length = 0 := by rw [hadj]; rfl
            dsimp only at hpq2
            simp only [dPotential] at hpot ⊢
            rw [hvis2]
            dsimp only
            omega

/-- The initial Dijkstra state satisfies the core invariant. -/
theorem dijkstraInit_core (g : Graph) (s : Node) : DInvCore g s (dijkstraInit s) := by
  refine ⟨?_, ?_, ?_, ?_, ?_, ?_, ?_, ?_, ?_, ?_⟩
  · intro u hu
    exact absurd hu (List.not_mem_nil _)
  · intro pr hpr
    simp only [dijkstraInit, List.mem_singleton] at hpr
    subst hpr
    exact WalkW.nil
  · intro pr hpr
    simp only [dijkstraInit, List.mem_singleton] at hpr
    subst hpr
    show Function.update (fun _ => (⊤ : WithTop ℚ)) s 0 s ≤ some 0
    rw [Function.update_same]
    exact le_refl _
  · intro v hv hne
    by_cases hvs : v = s
    · subst hvs
      refine ⟨0, ?_, List.mem_singleton_self _⟩
      show Function.update (fun _ => (⊤ : WithTop ℚ)) v 0 v = some 0
      rw [Function.update_same]
      rfl
    · exfalso
      apply hne
      show Function.update (fun _ => (⊤ : WithTop ℚ)) s 0 v = ⊤
      rw [Function.update_noteq hvs]
  · show Function.update (fun _ => (⊤ : WithTop ℚ)) s 0 s = some 0
    rw [Function.update_same]
    rfl
  · exact Or.inr (List.mem_singleton_self _)
  · intro v u h
    simp [dijkstraInit] at h
  · intro pr hpr
    simp only [dijkstraInit, List.mem_singleton] at hpr
    subst hpr
    exact Or.inl rfl
  · intro v hv
    exact absurd hv (List.not_mem_nil _)
  · rfl

/-- The initial Dijkstra state satisfies the frontier bound vacuously. -/
theorem dijkstraInit_frontier (g : Graph) (s : Node) :
    DInvFrontier g (dijkstraInit s) := by
  intro u hu
  exact absurd hu (List.not_mem_nil _)

/-- The chosen Dijkstra fuel exceeds the initial termination potential. -/
theorem dijkstraInit_potential (g : Graph) (s : Node) :
    dPotential g (dijkstraInit s) < dijkstraFuel g := by
  simp only [dPotential, dijkstraInit, dijkstraFuel]
  have hfilter : g.nodeList.filter (fun u => decide (u ∉ ([] : List Node)))
      = g.nodeList := List.filter_eq_self.2 (fun a _ => by simp)
  rw [hfilter]
  simp only [List.length_singleton]
  omega

/-- From any finalized node, the backward predecessor walk delivers (after
reversal) a walk from the start achieving the recorded distance. -/
theorem walkBack_reconstruct {g : Graph} {s : Node} {st : DState}
    (hbase : DInvBase g s st) (hcore : DInvCore g s st) :
    ∀ (fuel : ℕ) (v : Node) (l₂ acc : List Node),
      (v :: l₂) <:+ st.visited → l₂.length + 2 ≤ fuel →
      ∀ c : ℚ, st.dist v = some c →
      ∃ q : List Node, walkBack st.prev fuel (some v) acc = some (acc ++ q) ∧
        IsWalkFrom g s v q.reverse ∧ walkWeight g q.reverse = c ∧
        q.Sublist (v :: l₂) := by
  obtain ⟨hnd, hvs, hqs, hP⟩ := hbase
  obtain ⟨hA1, hA3, hA4, hA5, hA6, hA7, hA8, hA9, hA10, hA11⟩ := hcore
  intro fuel
  induction fuel with
  | zero =>
    intro v l₂ acc _ hb
    omega
  | succ fuel ih =>
    intro v l₂ acc hsuf hbound c hc
    have hvmem : v ∈ st.visited := hsuf.mem (List.mem_cons_self _ _)
    rw [walkBack]
    rcases hpv : st.prev v with _ | u
    · have hvs' : v = s := by
        by_contra hne
        exact hA10 v hvmem hne hpv
      subst hvs'
      have hc0 : c = 0 := by
        rw [hA6] at hc
        injection hc with h
        exact h.symm
      subst hc0
      rcases fuel with _ | fuel'
      · omega
      · rw [walkBack]
        exact ⟨[v], rfl, ⟨rfl, rfl, List.chain'_singleton _⟩, rfl,
          (List.nil_sublist _).cons₂ v⟩
    · obtain ⟨hu, hold⟩ := hP v u hpv
      obtain ⟨l₂'', hsuf'', hu''⟩ := older_iff_suffix.1 (hold hvmem)
      have hl2 : l₂'' = l₂ := suffix_cons_nodup_unique hnd hsuf'' hsuf
      subst hl2
      obtain ⟨a, hsufa, hlen⟩ := mem_suffix_decomp hu''
      have hsufl : (u :: a) <:+ st.visited :=
        hsufa.trans ((List.suffix_cons_iff.2 (Or.inr (List.suffix_refl _))).trans hsuf)
      obtain ⟨hedge, hdeq⟩ := hA8 v u hpv
      obtain ⟨cu, hcu, -, -⟩ := hA1 u hu
      rw [hc, hcu] at hdeq
      have hceq : c = cu + g.edgeWeight u v := by
        have hdeq' : ((c : ℚ) : WithTop ℚ) = ((cu : ℚ) : WithTop ℚ) +
            ((g.edgeWeight u v : ℚ) : WithTop ℚ) := hdeq
        exact_mod_cast hdeq'
      obtain ⟨q', hq', hwalk', hwt', hsub'⟩ :=
        ih u a (acc ++ [v]) hsufl (by omega) cu hcu
      rw [List.append_assoc] at hq'
      simp only [List.cons_append, List.nil_append] at hq'
      refine ⟨v :: q', hq', ?_, ?_, ?_⟩
      · rw [List.reverse_cons]
        exact IsWalkFrom_concat hwalk' hedge
      · rw [List.reverse_cons, walkWeight_concat hwalk'.2.1, hwt', hceq]
      · exact (hsub'.trans hsufa.sublist).cons₂ v

/-- The end state of a full `dijkstra` run: all invariants hold and the
queue has been drained. -/
theorem dijkstra_end {g : Graph} {s : Node}
    (hnn : ∀ a b, 0 ≤ g.edgeWeight a b) :
    DInvBase g s (dijkstraLoop g (dijkstraFuel g) (dijkstraInit s)) ∧
    DInvCore g s (dijkstraLoop g (dijkstraFuel g) (dijkstraInit s)) ∧
    DInvFrontier g (dijkstraLoop g (dijkstraFuel g) (dijkstraInit s)) ∧
    (dijkstraLoop g (dijkstraFuel g) (dijkstraInit s)).pq = [] := by
  obtain ⟨hc, hf⟩ := dijkstraLoop_core hnn (dijkstraFuel g) (dijkstraInit s)
    (dijkstraInit_base g s) (dijkstraInit_core g s) (dijkstraInit_frontier g s)
  exact ⟨dijkstraLoop_base (dijkstraFuel g) (dijkstraInit s)
      (dijkstraInit_base g s),
    hc, hf, dijkstraLoop_pq_nil (dijkstraFuel g) (dijkstraInit s)
      (dijkstraInit_potential g s)⟩

/-- Consequences of the drained queue: unfinalized nodes keep distance
infinity, and every node reachable by a walk is finalized. -/
theorem dijkstra_end_reach {g : Graph} {s : Node}
    (hnn : ∀ a b, 0 ≤ g.edgeWeight a b) :
    (∀ v, v ∉ (dijkstraLoop g (dijkstraFuel g) (dijkstraInit s)).visited →
      (dijkstraLoop g (dijkstraFuel g) (dijkstraInit s)).dist v = ⊤) ∧
    (∀ {v : Node} {c : ℚ}, WalkW g s v c →
      v ∈ (dijkstraLoop g (dijkstraFuel g) (dijkstraInit s)).visited) := by
  obtain ⟨hbase, hcore, hfront, hpq⟩ := dijkstra_end hnn (s := s)
  obtain ⟨hA1, hA3, hA4, hA5, hA6, hA7, hA8, hA9, hA10, hA11⟩ := hcore
  have hstop : ∀ v,
      v ∉ (dijkstraLoop g (dijkstraFuel g) (dijkstraInit s)).visited →
      (dijkstraLoop g (dijkstraFuel g) (dijkstraInit s)).dist v = ⊤ := by
    intro v hv
    by_contra hne
    obtain ⟨dv, -, hmem⟩ := hA5 v hv hne
    rw [hpq] at hmem
    exact absurd hmem (List.not_mem_nil _)
  refine ⟨hstop, ?_⟩
  have hsvis : s ∈ (dijkstraLoop g (dijkstraFuel g) (dijkstraInit s)).visited := by
    rcases hA7 with h | h
    · exact h
    · rw [hpq] at h
      exact absurd h (List.not_mem_nil _)
  have hclosed : ∀ u ∈ (dijkstraLoop g (dijkstraFuel g) (dijkstraInit s)).visited,
      ∀ v, g.isEdge u v →
        v ∈ (dijkstraLoop g (dijkstraFuel g) (dijkstraInit s)).visited := by
    intro u hu v he
    by_contra hv
    have htop := hstop v hv
    have hle := hfront u hu v he hv
    obtain ⟨cu, hcu, -, -⟩ := hA1 u hu
    rw [htop, hcu] at hle
    have hle' : (⊤ : WithTop ℚ) ≤ ((cu : ℚ) : WithTop ℚ) +
        ((g.edgeWeight u v : ℚ) : WithTop ℚ) := hle
    exact (WithTop.add_ne_top.2 ⟨WithTop.coe_ne_top, WithTop.coe_ne_top⟩)
      (top_le_iff.1 hle')
  intro v c hw
  induction hw with
  | nil => exact hsvis
  | cons hw' hedge ih => exact hclosed _ ih _ hedge

/-- C1: on a weighted graph with nonnegative edge weights and a source
present in the graph, `dijkstra` returns a distance map assigning every node
the minimum cumulative edge weight over all paths from the source — infinity
exactly for the unreachable nodes — together with a predecessor map from
which `reconstruct_path` recovers a simple path achieving that minimum. -/
theorem dijkstra_shortest_paths {g : Graph} {s : Node}
    (hnn : NonnegWeights g) (hs : s ∈ g.nodeList) (v : Node) :
    ((dijkstra g s).1 v = ⊤ ↔ ∀ p, ¬ IsWalkFrom g s v p) ∧
    (∀ c : ℚ, (dijkstra g s).1 v = some c →
      (∀ p, IsWalkFrom g s v p → c ≤ walkWeight g p) ∧
      ∃ p, reconstruct_path (dijkstra g s).2 s v (g.nodeList.length + 3)
          = some p ∧
        IsSimplePath g s v p ∧ walkWeight g p = c) := by
  have hnn' : ∀ a b, 0 ≤ g.edgeWeight a b := edgeWeight_nonneg hnn
  obtain ⟨hbase, hcore, hfront, hpq⟩ := dijkstra_end hnn' (s := s)
  obtain ⟨hstop, hreach⟩ := dijkstra_end_reach hnn' (s := s)
  have hdist : (dijkstra g s).1 =
      (dijkstraLoop g (dijkstraFuel g) (dijkstraInit s)).dist := rfl
  have hprev : (dijkstra g s).2 =
      (dijkstraLoop g (dijkstraFuel g) (dijkstraInit s)).prev := rfl
  have hsubvis : (dijkstraLoop g (dijkstraFuel g) (dijkstraInit s)).visited
      ⊆ g.nodeList := by
    intro x hx
    rcases hbase.2.1 x hx with h | h
    · exact h ▸ hs
    · exact h
  constructor
  · rw [hdist]
    constructor
    · intro htop p hp
      have hw := WalkW_of_IsWalkFrom hp
      have hvmem := hreach hw
      obtain ⟨c', hc', -, -⟩ := hcore.1 v hvmem
      rw [htop] at hc'
      exact WithTop.coe_ne_top hc'.symm
    · intro hno
      by_contra hne
      have hvmem : v ∈ (dijkstraLoop g (dijkstraFuel g) (dijkstraInit s)).visited := by
        by_cases hvv : v ∈ (dijkstraLoop g (dijkstraFuel g) (dijkstraInit s)).visited
        · exact hvv
        · exact absurd (hstop v hvv) hne
      obtain ⟨c', hc', hwalk, -⟩ := hcore.1 v hvmem
      obtain ⟨p, hp, -, -⟩ := IsWalkFrom_of_WalkW hwalk
      exact hno p hp
  · intro c hc
    rw [hdist] at hc
    have hvmem : v ∈ (dijkstraLoop g (dijkstraFuel g) (dijkstraInit s)).visited := by
      by_contra hvv
      rw [hstop v hvv] at hc
      exact WithTop.coe_ne_top hc.symm
    obtain ⟨c', hc', hwalk, hopt⟩ := hcore.1 v hvmem
    have hcc : c = c' := by
      rw [hc] at hc'
      injection hc'
    subst hcc
    constructor
    · intro p hp
      exact hopt _ (WalkW_of_IsWalkFrom hp)
    · obtain ⟨a, hsuf, halen⟩ := mem_suffix_decomp hvmem
      have hvlen : (dijkstraLoop g (dijkstraFuel g) (dijkstraInit s)).visited.length
          ≤ g.nodeList.length := nodup_subset_length_le hbase.1 hsubvis
      obtain ⟨q, hq, hwalkq, hwtq, hsubq⟩ :=
        walkBack_reconstruct hbase hcore (g.nodeList.length + 3) v a []
          hsuf (by omega) c hc
      simp only [List.nil_append] at hq
      refine ⟨q.reverse, ?_, ?_, hwtq⟩
      · rw [hprev, reconstruct_path, hq]
        dsimp only
        rw [if_pos hwalkq.1]
      · refine ⟨hwalkq, ?_, ?_⟩
        · rw [List.nodup_reverse]
          exact (hsubq.trans hsuf.sublist).nodup hbase.1
        · intro x hx
          rw [List.mem_reverse] at hx
          exact hsubvis ((hsubq.trans hsuf.sublist).subset hx)

/-- Witness for C1 on the weighted triangle: the computed distance to node
`2` is `2`, and no walk from `0` to `2` is cheaper. -/
theorem dijkstra_shortest_paths_witness :
    (dijkstra demoWeighted 0).1 2 = some 2 ∧
    ∀ p, IsWalkFrom demoWeighted 0 2 p → 2 ≤ walkWeight demoWeighted p := by
  have hc : (dijkstra demoWeighted 0).1 2 = some 2 := by with_unfolding_all rfl
  exact ⟨hc, ((dijkstra_shortest_paths (by unfold NonnegWeights; decide)
    (by decide) 2).2 2 hc).1⟩

/-- A node with no predecessor link yields the one-node backward walk. -/
theorem walkBack_none {prev : Node → Option Node} {t : Node}
    (h : prev t = none) :
    ∀ fuel, 2 ≤ fuel → walkBack prev fuel (some t) [] = some [t] := by
  intro fuel h2
  rcases fuel with _ | fuel
  · omega
  rcases fuel with _ | fuel
  · omega
  rw [walkBack, h, walkBack, List.nil_append]

/-- C4 counterexample: on the disconnected graph, node `2` is unreachable
from `0`; its distance entry is infinity, yet `reconstruct_path` returns the
empty path, whose cumulative weight is `0`, not infinity. -/
theorem reconstruct_weight_counterexample :
    reconstruct_path (dijkstra demoDisc 0).2 0 2 (demoDisc.nodeList.length + 3)
      = some [] ∧
    (dijkstra demoDisc 0).1 2 = ⊤ ∧
    ((walkWeight demoDisc [] : ℚ) : WithTop ℚ) ≠ (dijkstra demoDisc 0).1 2 := by
  refine ⟨by with_unfolding_all rfl, by with_unfolding_all rfl, ?_⟩
  intro h
  have h2 : (dijkstra demoDisc 0).1 2 = ⊤ := by with_unfolding_all rfl
  rw [h2] at h
  exact WithTop.coe_ne_top h

/-- C4 amended: with nonnegative weights, for every target whose distance
entry is finite, `reconstruct_path` on the returned predecessor map yields a
path of exactly that cumulative weight; for a target with an infinite entry
it yields the empty path (of weight `0`) instead. -/
theorem reconstruct_path_weight {g : Graph} {s : Node}
    (hnn : NonnegWeights g) (t : Node) :
    (∀ c : ℚ, (dijkstra g s).1 t = some c →
      ∃ p, reconstruct_path (dijkstra g s).2 s t (g.nodeList.length + 4)
          = some p ∧ walkWeight g p = c) ∧
    ((dijkstra g s).1 t = ⊤ →
      reconstruct_path (dijkstra g s).2 s t (g.nodeList.length + 4)
        = some []) := by
  have hnn' : ∀ a b, 0 ≤ g.edgeWeight a b := edgeWeight_nonneg hnn
  obtain ⟨hbase, hcore, hfront, hpq⟩ := dijkstra_end hnn' (s := s)
  obtain ⟨hstop, hreach⟩ := dijkstra_end_reach hnn' (s := s)
  have hdist : (dijkstra g s).1 =
      (dijkstraLoop g (dijkstraFuel g) (dijkstraInit s)).dist := rfl
  have hprev : (dijkstra g s).2 =
      (dijkstraLoop g (dijkstraFuel g) (dijkstraInit s)).prev := rfl
  have hsubvis : (dijkstraLoop g (dijkstraFuel g) (dijkstraInit s)).visited
      ⊆ s :: g.nodeList := by
    intro x hx
    rcases hbase.2.1 x hx with h | h
    · exact h ▸ List.mem_cons_self _ _
    · exact List.mem_cons_of_mem _ h
  have hvlen : (dijkstraLoop g (dijkstraFuel g) (dijkstraInit s)).visited.length
      ≤ g.nodeList.length + 1 := nodup_subset_length_le hbase.1 hsubvis
  constructor
  · intro c hc
    rw [hdist] at hc
    have hvmem : t ∈ (dijkstraLoop g (dijkstraFuel g) (dijkstraInit s)).visited := by
      by_contra hvv
      rw [hstop t hvv] at hc
      exact WithTop.coe_ne_top hc.symm
    obtain ⟨a, hsuf, halen⟩ := mem_suffix_decomp hvmem
    obtain ⟨q, hq, hwalkq, hwtq, hsubq⟩ :=
      walkBack_reconstruct hbase hcore (g.nodeList.length + 4) t a []
        hsuf (by omega) c hc
    simp only [List.nil_append] at hq
    refine ⟨q.reverse, ?_, hwtq⟩
    rw [hprev, reconstruct_path, hq]
    dsimp only
    rw [if_pos hwalkq.1]
  · intro htop
    rw [hdist] at htop
    have htns : t ∉ (dijkstraLoop g (dijkstraFuel g) (dijkstraInit s)).visited := by
      intro hmem
      obtain ⟨c', hc', -, -⟩ := hcore.1 t hmem
      rw [htop] at hc'
      exact WithTop.coe_ne_top hc'.symm
    have hpt : (dijkstraLoop g (dijkstraFuel g) (dijkstraInit s)).prev t = none := by
      rcases hp : (dijkstraLoop g (dijkstraFuel g) (dijkstraInit s)).prev t
        with _ | u
      · rfl
      · exfalso
        obtain ⟨hedge, hdeq⟩ := hcore.2.2.2.2.2.2.1 t u hp
        have humem := (hbase.2.2.2 t u hp).1
        obtain ⟨cu, hcu, -, -⟩ := hcore.1 u humem
        rw [htop, hcu] at hdeq
        have hdeq' : (⊤ : WithTop ℚ) = ((cu : ℚ) : WithTop ℚ) +
            ((g.edgeWeight u t : ℚ) : WithTop ℚ) := hdeq
        exact (WithTop.add_ne_top.2 ⟨WithTop.coe_ne_top, WithTop.coe_ne_top⟩)
          hdeq'.symm
    have hts : t ≠ s := by
      intro h
      rw [h, hcore.2.2.2.2.1] at htop
      exact WithTop.coe_ne_top htop
    have hwb := walkBack_none hpt (g.nodeList.length + 4) (by omega)
    rw [hprev, reconstruct_path, hwb]
    dsimp only
    rw [if_neg]
    intro h
    simp only [List.reverse_singleton, List.head?_cons, Option.some.injEq] at h
    exact hts h

/-- Witness for C4 on the weighted triangle: the reconstructed path to node
`2` is `0 – 1 – 2`, whose cumulative weight `2` matches the distance entry. -/
theorem reconstruct_path_weight_witness :
    reconstruct_path (dijkstra demoWeighted 0).2 0 2
      (demoWeighted.nodeList.length + 4) = some [0, 1, 2] ∧
    walkWeight demoWeighted [0, 1, 2] = 2 := by
  have hc : (dijkstra demoWeighted 0).1 2 = some 2 := by with_unfolding_all rfl
  obtain ⟨p, hp, hw⟩ :=
    (reconstruct_path_weight (by unfold NonnegWeights; decide) 2).1 2 hc
  have hr : reconstruct_path (dijkstra demoWeighted 0).2 0 2
      (demoWeighted.nodeList.length + 4) = some [0, 1, 2] := by
    with_unfolding_all rfl
  rw [hr] at hp
  have hpe : [0, 1, 2] = p := by injection hp
  rw [← hpe] at hw
  exact ⟨hr, hw⟩

/-- On a graph with no weight attributes every resolved edge weight defaults
to `1`. -/
theorem edgeWeight_unit {g : Graph} (hnw : NoWeights g) (a b : Node) :
    g.edgeWeight a b = 1 := by
  rcases hfind : g.edges.find? (fun e =>
      (e.ep1 == a && e.ep2 == b) || (e.ep1 == b && e.ep2 == a)) with _ | e
  · rw [Graph.edgeWeight, hfind]
  · rw [Graph.edgeWeight, hfind]
    show e.weight.getD 1 = 1
    rw [hnw e (List.mem_of_find?_eq_some hfind)]
    rfl

/-- With unit edge weights, a nonempty walk's cumulative weight is its edge
count: one less than its node count. -/
theorem walkWeight_unit {g : Graph} (h1 : ∀ a b, g.edgeWeight a b = 1) :
    ∀ p : List Node, p ≠ [] → walkWeight g p + 1 = (p.length : ℚ) := by
  intro p
  induction p with
  | nil => intro h; exact absurd rfl h
  | cons a rest ih =>
    intro _
    rcases rest with _ | ⟨b, rest'⟩
    · simp [walkWeight]
    · rw [walkWeight, h1]
      have hih := ih (by simp)
      simp only [List.length_cons] at hih ⊢
      push_cast at hih ⊢
      linarith

/-- C10: on a graph where no edge carries a weight attribute, `dijkstra`
resolves every touched edge's weight to the default `1`, and the returned
distance map records, for each reachable node, the minimum edge count of a
walk from the source (infinity for unreachable nodes). -/
theorem dijkstra_unit_weights {g : Graph} {s : Node}
    (hnw : NoWeights g) (v : Node) :
    (∀ a b, g.edgeWeight a b = 1) ∧
    ((dijkstra g s).1 v = ⊤ ↔ ∀ p, ¬ IsWalkFrom g s v p) ∧
    (∀ c : ℚ, (dijkstra g s).1 v = some c →
      (∃ p, IsWalkFrom g s v p ∧ (p.length : ℚ) = c + 1) ∧
      ∀ p, IsWalkFrom g s v p → c + 1 ≤ (p.length : ℚ)) := by
  have h1 : ∀ a b, g.edgeWeight a b = 1 := edgeWeight_unit hnw
  have hnn' : ∀ a b, 0 ≤ g.edgeWeight a b := by
    intro a b
    rw [h1]
    norm_num
  obtain ⟨hbase, hcore, hfront, hpq⟩ := dijkstra_end hnn' (s := s)
  obtain ⟨hstop, hreach⟩ := dijkstra_end_reach hnn' (s := s)
  have hdist : (dijkstra g s).1 =
      (dijkstraLoop g (dijkstraFuel g) (dijkstraInit s)).dist := rfl
  refine ⟨h1, ⟨?_, ?_⟩, ?_⟩
  · rw [hdist]
    intro htop p hp
    have hw := WalkW_of_IsWalkFrom hp
    have hvmem := hreach hw
    obtain ⟨c', hc', -, -⟩ := hcore.1 v hvmem
    rw [htop] at hc'
    exact WithTop.coe_ne_top hc'.symm
  · rw [hdist]
    intro hno
    by_contra hne
    have hvmem : v ∈ (dijkstraLoop g (dijkstraFuel g) (dijkstraInit s)).visited := by
      by_cases hvv : v ∈ (dijkstraLoop g (dijkstraFuel g) (dijkstraInit s)).visited
      · exact hvv
      · exact absurd (hstop v hvv) hne
    obtain ⟨c', hc', hwalk, -⟩ := hcore.1 v hvmem
    obtain ⟨p, hp, -, -⟩ := IsWalkFrom_of_WalkW hwalk
    exact hno p hp
  · intro c hc
    rw [hdist] at hc
    have hvmem : v ∈ (dijkstraLoop g (dijkstraFuel g) (dijkstraInit s)).visited := by
      by_contra hvv
      rw [hstop v hvv] at hc
      exact WithTop.coe_ne_top hc.symm
    obtain ⟨c', hc', hwalk, hopt⟩ := hcore.1 v hvmem
    have hcc : c = c' := by
      rw [hc] at hc'
      injection hc'
    subst hcc
    constructor
    · obtain ⟨p, hp, hwt, hne⟩ := IsWalkFrom_of_WalkW hwalk
      refine ⟨p, hp, ?_⟩
      rw [← walkWeight_unit h1 p hne, hwt]
    · intro p hp
      have hle := hopt _ (WalkW_of_IsWalkFrom hp)
      have hne : p ≠ [] := by
        intro h
        rw [h] at hp
        exact Option.noConfusion hp.1
      rw [← walkWeight_unit h1 p hne]
      linarith

/-- Witness for C10 on the unweighted chain: the distance to node `2` is
`2`, and every walk from `0` to `2` spans at least two edges. -/
theorem dijkstra_unit_weights_witness :
    (dijkstra demoChain 0).1 2 = some 2 ∧
    ∀ p, IsWalkFrom demoChain 0 2 p → (2 : ℚ) + 1 ≤ (p.length : ℚ) := by
  have hc : (dijkstra demoChain 0).1 2 = some 2 := by with_unfolding_all rfl
  exact ⟨hc, ((dijkstra_unit_weights (by unfold NoWeights; decide)
    2).2.2 2 hc).2⟩

/-- Under the BFS invariant, every walk reaching an unvisited node is at
least as long (in nodes) as the queue's front path. -/
theorem bfs_lower {g : Graph} {s t : Node} {Q : List (Node × List Node)}
    {V : List Node} (hinv : BInv g s t Q V) {e₀ : Node × List Node}
    {rest : List (Node × List Node)} (hQ : Q = e₀ :: rest) :
    ∀ {v : Node} {k : ℕ}, WalkN g s v k → v ∉ V → e₀.2.length ≤ k := by
  obtain ⟨hsV, htV, hndV, hVg, hwf, hpair, hspr, hopt, hcomp⟩ := hinv
  intro v k hw
  induction hw with
  | nil => intro hv; exact absurd hsV hv
  | cons hw' hedge ih =>
    rename_i u vv kk
    intro hv
    by_cases hu : u ∈ V
    · rcases hcomp u hu with ⟨pu, hpu⟩ | hcl
      · have hle : pu.length ≤ kk + 1 := hopt (u, pu) hpu kk hw'
        rw [hQ] at hpu hpair
        obtain ⟨hhead, -⟩ := List.pairwise_cons.1 hpair
        rcases List.mem_cons.1 hpu with h | h
        · rw [← h]
          exact hle
        · exact le_trans (hhead (u, pu) h) hle
      · exact absurd (hcl vv hedge) hv
    · exact le_trans (ih hu) (Nat.le_succ _)

/-- Every concrete walk yields a hop-counted walk of one less than its node
count. -/
theorem WalkN_of_IsWalkFrom {g : Graph} {s : Node} :
    ∀ {p : List Node} {t : Node}, IsWalkFrom g s t p →
      ∃ k, WalkN g s t k ∧ k + 1 = p.length := by
  intro p
  induction p using List.reverseRecOn with
  | nil => intro t h; obtain ⟨h1, -, -⟩ := h; cases h1
  | append_singleton q v ih =>
    intro t h
    rcases q with _ | ⟨a, r⟩
    · obtain ⟨h1, h2, -⟩ := h
      simp only [List.nil_append, List.head?_cons, Option.some.injEq] at h1
      simp only [List.nil_append, List.getLast?_singleton, Option.some.injEq] at h2
      subst h1
      subst h2
      exact ⟨0, WalkN.nil, rfl⟩
    · obtain ⟨ht, u, hu, hedge, hwalk⟩ := IsWalkFrom_concat_inv (by simp) h
      subst ht
      obtain ⟨k, hk, hlen⟩ := ih hwalk
      refine ⟨k + 1, WalkN.cons hk hedge, ?_⟩
      simp only [List.length_append, List.length_singleton]
      omega

/-- The neighbor scan of the BFS loop: on finding the goal it returns the
popped path extended by the goal — a shortest simple path — and otherwise
it re-establishes the loop invariant, growing the queue and the visited
list in lockstep. -/
theorem bfsScan_spec {g : Graph} {s t c : Node} {path : List Node}
    (hwalkc : IsWalkFrom g s c path) (hndp : path.Nodup) :
    ∀ (ns : List Node) (queue : List (Node × List Node)) (V : List Node),
      (∀ n ∈ ns, g.isEdge c n ∧ n ∈ g.nodeList) →
      s ∈ V → t ∉ V → V.Nodup → (∀ v ∈ V, v ∈ g.nodeList) →
      (∀ x ∈ path, x ∈ V) →
      (∀ e ∈ queue, e.1 ∈ V ∧ IsWalkFrom g s e.1 e.2 ∧ e.2.Nodup ∧
        ∀ x ∈ e.2, x ∈ V) →
      List.Pairwise (fun a b : Node × List Node =>
        a.2.length ≤ b.2.length) queue →
      (∀ e ∈ queue, path.length ≤ e.2.length ∧
        e.2.length ≤ path.length + 1) →
      (∀ e ∈ queue, ∀ k, WalkN g s e.1 k → e.2.length ≤ k + 1) →
      (∀ v k, WalkN g s v k → v ∉ V → path.length ≤ k) →
      (∀ u ∈ V, (∃ p, (u, p) ∈ queue) ∨ (∀ w, g.isEdge u w → w ∈ V) ∨
        (u = c ∧ ∀ w, g.isEdge c w → w ∈ V ∨ w ∈ ns)) →
      (∀ found, bfsScan t path ns queue V = Sum.inl found →
        found = path ++ [t] ∧ IsSimplePath g s t found ∧
        ∀ k, WalkN g s t k → found.length ≤ k + 1) ∧
      (∀ Q2 V2, bfsScan t path ns queue V = Sum.inr (Q2, V2) →
        BInv g s t Q2 V2 ∧ (∀ v ∈ V, v ∈ V2) ∧
        Q2.length + V.length = queue.length + V2.length) := by
  intro ns
  induction ns with
  | nil =>
    intro queue V hns hsV htV hndV hVg hpathV hwf hpair hbnd hopt hLB hcomp
    constructor
    · intro found heq
      rw [bfsScan] at heq
      exact Sum.noConfusion heq
    · intro Q2 V2 heq
      rw [bfsScan] at heq
      injection heq with h
      injection h with h1 h2
      subst h1
      subst h2
      refine ⟨⟨hsV, htV, hndV, hVg, hwf, hpair, ?_, hopt, ?_⟩,
        fun v hv => hv, rfl⟩
      · intro a ha b hb
        have h1 := (hbnd a ha).2
        have h2 := (hbnd b hb).1
        omega
      · intro u hu
        rcases hcomp u hu with h | h | ⟨huc, hcl⟩
        · exact Or.inl h
        · exact Or.inr h
        · subst huc
          refine Or.inr ?_
          intro w hw
          rcases hcl w hw with h | h
          · exact h
          · exact absurd h (List.not_mem_nil _)
  | cons n ns ih =>
    intro queue V hns hsV htV hndV hVg hpathV hwf hpair hbnd hopt hLB hcomp
    have hedge : g.isEdge c n := (hns n (List.mem_cons_self _ _)).1
    have hnnode : n ∈ g.nodeList := (hns n (List.mem_cons_self _ _)).2
    rw [bfsScan]
    by_cases hnv : n ∈ V
    · rw [if_pos hnv]
      refine ih queue V (fun m hm => hns m (List.mem_cons_of_mem _ hm))
        hsV htV hndV hVg hpathV hwf hpair hbnd hopt hLB ?_
      intro u hu
      rcases hcomp u hu with h | h | ⟨huc, hcl⟩
      · exact Or.inl h
      · exact Or.inr (Or.inl h)
      · refine Or.inr (Or.inr ⟨huc, ?_⟩)
        intro w hw
        rcases hcl w hw with h | h
        · exact Or.inl h
        · rcases List.mem_cons.1 h with h' | h'
          · exact Or.inl (h' ▸ hnv)
          · exact Or.inr h'
    · rw [if_neg hnv]
      by_cases hnt : n = t
      · rw [if_pos hnt]
        subst hnt
        constructor
        · intro found heq
          injection heq with h
          subst h
          have hntp : n ∉ path := fun h => hnv (hpathV n h)
          refine ⟨rfl, ⟨IsWalkFrom_concat hwalkc hedge, ?_, ?_⟩, ?_⟩
          · exact List.Nodup.append hndp (List.nodup_singleton _)
              (by
                intro x hx hx'
                rw [List.mem_singleton] at hx'
                subst hx'
                exact hntp hx)
          · intro x hx
            rcases List.mem_append.1 hx with h | h
            · exact hVg x (hpathV x h)
            · rw [List.mem_singleton] at h
              exact h ▸ hnnode
          · intro k hw
            have := hLB n k hw hnv
            simp only [List.length_append, List.length_singleton]
            omega
        · intro Q2 V2 heq
          exact Sum.noConfusion heq
      · rw [if_neg hnt]
        have hntpath : n ∉ path := fun h => hnv (hpathV n h)
        have hargs1 : ∀ m ∈ ns, g.isEdge c m ∧ m ∈ g.nodeList :=
          fun m hm => hns m (List.mem_cons_of_mem _ hm)
        have hsV' : s ∈ n :: V := List.mem_cons_of_mem _ hsV
        have htV' : t ∉ n :: V := by
          intro h
          rcases List.mem_cons.1 h with h' | h'
          · exact hnt h'.symm
          · exact htV h'
        have hndV' : (n :: V).Nodup := List.nodup_cons.2 ⟨hnv, hndV⟩
        have hVg' : ∀ v ∈ n :: V, v ∈ g.nodeList := by
          intro v hv
          rcases List.mem_cons.1 hv with h' | h'
          · exact h' ▸ hnnode
          · exact hVg v h'
        have hpathV' : ∀ x ∈ path, x ∈ n :: V :=
          fun x hx => List.mem_cons_of_mem _ (hpathV x hx)
        have hwf' : ∀ e ∈ queue ++ [(n, path ++ [n])], e.1 ∈ n :: V ∧
            IsWalkFrom g s e.1 e.2 ∧ e.2.Nodup ∧ ∀ x ∈ e.2, x ∈ n :: V := by
          intro e he
          rcases List.mem_append.1 he with h | h
          · obtain ⟨h1, h2, h3, h4⟩ := hwf e h
            exact ⟨List.mem_cons_of_mem _ h1, h2, h3,
              fun x hx => List.mem_cons_of_mem _ (h4 x hx)⟩
          · rw [List.mem_singleton] at h
            subst h
            refine ⟨List.mem_cons_self _ _, IsWalkFrom_concat hwalkc hedge,
              ?_, ?_⟩
            · exact List.Nodup.append hndp (List.nodup_singleton _)
                (by
                  intro x hx hx'
                  rw [List.mem_singleton] at hx'
                  subst hx'
                  exact hntpath hx)
            · intro x hx
              rcases List.mem_append.1 hx with h | h
              · exact List.mem_cons_of_mem _ (hpathV x h)
              · rw [List.mem_singleton] at h
                exact h ▸ List.mem_cons_self _ _
        have hpair' : List.Pairwise (fun a b : Node × List Node =>
            a.2.length ≤ b.2.length) (queue ++ [(n, path ++ [n])]) := by
          refine List.pairwise_append.2 ⟨hpair, List.pairwise_singleton _ _, ?_⟩
          intro a ha b hb
          rw [List.mem_singleton] at hb
          subst hb
          have := (hbnd a ha).2
          simp only [List.length_append, List.length_singleton]
          omega
        have hbnd' : ∀ e ∈ queue ++ [(n, path ++ [n])],
            path.length ≤ e.2.length ∧ e.2.length ≤ path.length + 1 := by
          intro e he
          rcases List.mem_append.1 he with h | h
          · exact hbnd e h
          · rw [List.mem_singleton] at h
            subst h
            simp only [List.length_append, List.length_singleton]
            omega
        have hopt' : ∀ e ∈ queue ++ [(n, path ++ [n])], ∀ k,
            WalkN g s e.1 k → e.2.length ≤ k + 1 := by
          intro e he
          rcases List.mem_append.1 he with h | h
          · exact hopt e h
          · rw [List.mem_singleton] at h
            subst h
            intro k hw
            have := hLB n k hw hnv
            simp only [List.length_append, List.length_singleton]
            omega
        have hLB' : ∀ v k, WalkN g s v k → v ∉ n :: V → path.length ≤ k :=
          fun v k hw hv => hLB v k hw (fun h => hv (List.mem_cons_of_mem _ h))
        have hcomp' : ∀ u ∈ n :: V,
            (∃ p, (u, p) ∈ queue ++ [(n, path ++ [n])]) ∨
            (∀ w, g.isEdge u w → w ∈ n :: V) ∨
            (u = c ∧ ∀ w, g.isEdge c w → w ∈ n :: V ∨ w ∈ ns) := by
          intro u hu
          rcases List.mem_cons.1 hu with h' | h'
          · refine Or.inl ⟨path ++ [n], ?_⟩
            rw [h']
            exact List.mem_append_right _ (List.mem_singleton_self _)
          · rcases hcomp u h' with h | h | ⟨huc, hcl⟩
            · obtain ⟨p, hp⟩ := h
              exact Or.inl ⟨p, List.mem_append_left _ hp⟩
            · exact Or.inr (Or.inl (fun w hw =>
                List.mem_cons_of_mem _ (h w hw)))
            · refine Or.inr (Or.inr ⟨huc, ?_⟩)
              intro w hw
              rcases hcl w hw with h | h
              · exact Or.inl (List.mem_cons_of_mem _ h)
              · rcases List.mem_cons.1 h with h'' | h''
                · exact Or.inl (h'' ▸ List.mem_cons_self _ _)
                · exact Or.inr h''
        obtain ⟨ihl, ihr⟩ := ih (queue ++ [(n, path ++ [n])]) (n :: V)
          hargs1 hsV' htV' hndV' hVg' hpathV' hwf' hpair' hbnd' hopt'
          hLB' hcomp'
        refine ⟨ihl, ?_⟩
        intro Q2 V2 heq
        obtain ⟨hb, hmono, hlen⟩ := ihr Q2 V2 heq
        refine ⟨hb, fun v hv => hmono v (List.mem_cons_of_mem _ hv), ?_⟩
        simp only [List.length_append, List.length_singleton,
          List.length_cons, List.length_nil] at hlen ⊢
        omega

/-- The BFS loop under its invariant: with fuel exceeding the remaining
work it delivers a verdict; a returned path is a shortest simple path to
the goal, and a `none` verdict means the goal is unreachable. -/
theorem bfsAux_spec {g : Graph} {s t : Node} :
    ∀ (fuel : ℕ) (Q : List (Node × List Node)) (V : List Node),
      BInv g s t Q V →
      Q.length + g.nodeList.length + 1 ≤ fuel + V.length →
      ∃ r, bfsAux g fuel Q t V = some r ∧
        (∀ res, r = some res → IsSimplePath g s t res ∧
          ∀ k, WalkN g s t k → res.length ≤ k + 1) ∧
        (r = none → ∀ k, ¬ WalkN g s t k) := by
  intro fuel
  induction fuel with
  | zero =>
    intro Q V hinv hfuel
    exfalso
    have hVlen : V.length ≤ g.nodeList.length :=
      nodup_subset_length_le hinv.2.2.1 (fun v hv => hinv.2.2.2.1 v hv)
    omega
  | succ fuel ihf =>
    intro Q V hinv hfuel
    rcases Q with _ | ⟨⟨c, path⟩, rest⟩
    · refine ⟨none, rfl, ?_, ?_⟩
      · intro res h
        exact Option.noConfusion h
      · intro _ k hw
        have hall : ∀ v m, WalkN g s v m → v ∈ V := by
          intro v m hwv
          induction hwv with
          | nil => exact hinv.1
          | cons hw' hedge ihw =>
            rename_i u vv kk
            rcases hinv.2.2.2.2.2.2.2.2 u ihw with ⟨p, hp⟩ | hcl
            · exact absurd hp (List.not_mem_nil _)
            · exact hcl vv hedge
        exact hinv.2.1 (hall t k hw)
    · have hLB : ∀ v k, WalkN g s v k → v ∉ V → path.length ≤ k :=
        fun v k hw hv => bfs_lower hinv rfl hw hv
      obtain ⟨hcV, hwalkc, hndp, hpathV⟩ :=
        hinv.2.2.2.2.1 (c, path) (List.mem_cons_self _ _)
      obtain ⟨hsV, htV, hndV, hVg, hwf, hpair, hspr, hopt, hcomp⟩ := hinv
      have hns : ∀ n ∈ g.neighborsSorted c, g.isEdge c n ∧ n ∈ g.nodeList :=
        fun n hn => ⟨Graph.mem_neighborsSorted.1 hn,
          g.neighborsSorted_subset_nodeList c hn⟩
      have hwfr : ∀ e ∈ rest, e.1 ∈ V ∧ IsWalkFrom g s e.1 e.2 ∧
          e.2.Nodup ∧ ∀ x ∈ e.2, x ∈ V :=
        fun e he => hwf e (List.mem_cons_of_mem _ he)
      obtain ⟨hheadle, hpairr⟩ := List.pairwise_cons.1 hpair
      have hbnd : ∀ e ∈ rest, path.length ≤ e.2.length ∧
          e.2.length ≤ path.length + 1 :=
        fun e he => ⟨hheadle e he,
          hspr e (List.mem_cons_of_mem _ he) (c, path) (List.mem_cons_self _ _)⟩
      have hoptr : ∀ e ∈ rest, ∀ k, WalkN g s e.1 k → e.2.length ≤ k + 1 :=
        fun e he => hopt e (List.mem_cons_of_mem _ he)
      have hcompr : ∀ u ∈ V, (∃ p, (u, p) ∈ rest) ∨
          (∀ w, g.isEdge u w → w ∈ V) ∨
          (u = c ∧ ∀ w, g.isEdge c w → w ∈ V ∨ w ∈ g.neighborsSorted c) := by
        intro u hu
        rcases hcomp u hu with ⟨p, hp⟩ | hcl
        · rcases List.mem_cons.1 hp with h | h
          · have huc : u = c := congrArg Prod.fst h
            refine Or.inr (Or.inr ⟨huc, ?_⟩)
            intro w hw
            exact Or.inr (Graph.mem_neighborsSorted.2 hw)
          · exact Or.inl ⟨p, h⟩
        · exact Or.inr (Or.inl hcl)
      obtain ⟨scanl, scanr⟩ := bfsScan_spec hwalkc hndp
        (g.neighborsSorted c) rest V hns hsV htV hndV hVg hpathV
        hwfr hpairr hbnd hoptr hLB hcompr
      rcases hscan : bfsScan t path (g.neighborsSorted c) rest V
        with found | ⟨Q2, V2⟩
      · obtain ⟨hfe, hsimple, hoptf⟩ := scanl found hscan
        refine ⟨some found, ?_, ?_, ?_⟩
        · rw [bfsAux, hscan]
        · intro res hres
          injection hres with h
          subst h
          exact ⟨hsimple, hoptf⟩
        · intro h
          exact Option.noConfusion h
      · obtain ⟨hb2, hmono2, hlen2⟩ := scanr Q2 V2 hscan
        obtain ⟨r, hr, hsome, hnone⟩ := ihf Q2 V2 hb2 (by
          simp only [List.length_cons] at hfuel
          omega)
        refine ⟨r, ?_, hsome, hnone⟩
        rw [bfsAux, hscan]
        exact hr

/-- C2: for every graph and every pair of nodes joined by a valid simple
path, `bfs_path` returns a valid simple path from start to goal whose edge
count is at most that of every valid simple path between them. -/
theorem bfs_path_shortest {g : Graph} {s t : Node}
    (hconn : ∃ q, IsSimplePath g s t q) :
    ∃ p, bfs_path g s t = some p ∧ IsSimplePath g s t p ∧
      ∀ q, IsSimplePath g s t q → p.length ≤ q.length := by
  obtain ⟨q0, hq0⟩ := hconn
  obtain ⟨⟨hq0h, hq0l, hq0c⟩, hq0nd, hq0g⟩ := hq0
  have hsg : s ∈ g.nodeList := hq0g s (List.mem_of_mem_head? hq0h)
  have htq : t ∈ q0 := by
    obtain ⟨hne, heq⟩ :=
      List.mem_getLast?_eq_getLast (show t ∈ q0.getLast? from hq0l)
    exact heq.symm ▸ List.getLast_mem hne
  have htg : t ∈ g.nodeList := hq0g t htq
  by_cases hst : s = t
  · subst hst
    refine ⟨[s], ?_, ?_, ?_⟩
    · simp only [bfs_path]
      rw [if_pos ⟨hsg, hsg⟩, if_pos trivial]
    · refine ⟨⟨rfl, rfl, List.chain'_singleton _⟩, List.nodup_singleton _, ?_⟩
      intro x hx
      rw [List.mem_singleton] at hx
      subst hx
      exact hsg
    · intro q hq
      have hne : q ≠ [] := by
        intro h
        rw [h] at hq
        exact Option.noConfusion hq.1.1
      have h1 : 1 ≤ q.length := List.length_pos.2 hne
      simpa using h1
  · have hinv0 : BInv g s t [(s, [s])] [s] := by
      refine ⟨List.mem_singleton_self _, ?_, List.nodup_singleton _, ?_,
        ?_, List.pairwise_singleton _ _, ?_, ?_, ?_⟩
      · intro h
        rw [List.mem_singleton] at h
        exact hst h.symm
      · intro v hv
        rw [List.mem_singleton] at hv
        subst hv
        exact hsg
      · intro e he
        rw [List.mem_singleton] at he
        subst he
        exact ⟨List.mem_singleton_self _, ⟨rfl, rfl, List.chain'_singleton _⟩,
          List.nodup_singleton _, fun x hx => hx⟩
      · intro a ha b hb
        rw [List.mem_singleton] at ha hb
        subst ha
        subst hb
        exact Nat.le_succ _
      · intro e he
        rw [List.mem_singleton] at he
        subst he
        intro k _
        exact Nat.succ_le_succ (Nat.zero_le k)
      · intro u hu
        rw [List.mem_singleton] at hu
        subst hu
        exact Or.inl ⟨[u], List.mem_singleton_self _⟩
    obtain ⟨r, hr, hsome, hnone⟩ := bfsAux_spec (bfsFuel g) [(s, [s])] [s]
      hinv0 (by
        simp only [List.length_singleton, bfsFuel]
        omega)
    rcases r with _ | res
    · exfalso
      obtain ⟨k, hk, -⟩ := WalkN_of_IsWalkFrom
        (⟨hq0h, hq0l, hq0c⟩ : IsWalkFrom g s t q0)
      exact hnone rfl k hk
    · obtain ⟨hsimple, hoptk⟩ := hsome res rfl
      refine ⟨res, ?_, hsimple, ?_⟩
      · simp only [bfs_path]
        rw [if_pos ⟨hsg, htg⟩, if_neg hst, hr]
        rfl
      · intro q hq
        obtain ⟨k, hk, hkl⟩ := WalkN_of_IsWalkFrom hq.1
        have := hoptk k hk
        omega

/-- Witness for C2 on the chain `0 – 1 – 2`: BFS returns `[0, 1, 2]`, and
every valid simple path from `0` to `2` has at least three nodes. -/
theorem bfs_path_shortest_witness :
    bfs_path demoChain 0 2 = some [0, 1, 2] ∧
    ∀ q, IsSimplePath demoChain 0 2 q → 3 ≤ q.length := by
  obtain ⟨p, hp, -, hopt⟩ := bfs_path_shortest (g := demoChain) (s := 0) (t := 2)
    ⟨[0, 1, 2], by
      refine ⟨⟨rfl, rfl, ?_⟩, by decide, by decide⟩
      simp only [List.chain'_cons, List.chain'_singleton, and_true]
      exact ⟨by decide, by decide⟩⟩
  have hv : bfs_path demoChain 0 2 = some [0, 1, 2] := by decide
  rw [hv] at hp
  have hpe : [0, 1, 2] = p := by injection hp
  refine ⟨hv, ?_⟩
  intro q hq
  have := hopt q hq
  rw [← hpe] at this
  simpa using this
